import Mathlib

/-!
Verification of the Lichess popularity-analysis pipeline
(`src/tools/analysis/analyze_lichess_popularity.py`).

The development shallowly embeds the parts of the script the claims are
about:

* `PopularityStats` and the statistics aggregation performed inside
  `LichessAnalyzer.process_game` (lines 467-491), with ratings modelled as
  exact rationals;
* `process_game` itself (lines 423-495), over an abstract parse outcome
  for the external `chess.pgn.read_game` call, together with `_safe_int`
  (lines 497-502);
* `calculate_popularity_scores` (lines 504-553), including an exact
  integer model of the IEEE-754 binary64 arithmetic the script uses to
  compute `int((i / 10) * n) - 1`;
* `save_final_results`' per-position record construction (lines 562-578);
* `save_checkpoint`'s file operations (lines 174-192) as an effect trace;
* `download_file_with_retry` (lines 255-332) and `download_worker`
  (lines 697-768) as event-trace functions over an environment oracle
  supplying download/validation outcomes.
-/

set_option maxRecDepth 8000

/-! ## Data model: `PopularityStats` (dataclass, lines 79-90)

Counts are Python non-negative ints, modelled as `ℕ`; `avg_rating` is an
optional float, modelled as `Option ℚ` (the claims about it are stated
over exact arithmetic); `confidence_score` is a float drawn from the fixed
ladder `{0.0, 0.4, 0.6, 0.8, 1.0}`, all of which are exactly representable,
modelled as `ℚ`. -/

structure PopularityStats where
  popularity_score : ℕ := 0
  frequency_count : ℕ := 0
  white_wins : ℕ := 0
  black_wins : ℕ := 0
  draws : ℕ := 0
  games_analyzed : ℕ := 0
  avg_rating : Option ℚ := none
  confidence_score : ℚ := 0
  analysis_date : String := ""
  deriving Repr, DecidableEq

/-- The zero-valued record `PopularityStats()` used to initialise every
position of the target universe (line 149). -/
def PopularityStats.init : PopularityStats := {}

/-- The statistics map `self.stats`. A Python dict preserving insertion
order is modelled as an association list. -/
abbrev StatsMap := List (String × PopularityStats)

/-- One `(fen, rating, result)` tuple of `position_updates` (line 461). -/
abbrev GameUpdate := String × ℚ × String

/-! ## Statistics aggregation (`process_game`, lines 469-491) -/

/-- The per-record update body of the batched loop (lines 475-491):
increment `games_analyzed` and `frequency_count`, fold `rating` into the
running average (`((avg * (games_analyzed - 1)) + rating) / games_analyzed`
with the already-incremented count, or `rating` itself when the average is
still `None`), and bump the single result bucket matching `game_result`
(`elif` chain, lines 486-491). -/
def updateRecord (st : PopularityStats) (rating : ℚ) (game_result : String) :
    PopularityStats :=
  let games := st.games_analyzed + 1
  let avg : ℚ :=
    match st.avg_rating with
    | none => rating
    | some old => (old * ((games : ℚ) - 1) + rating) / (games : ℚ)
  let st := { st with games_analyzed := games,
                      frequency_count := st.frequency_count + 1,
                      avg_rating := some avg }
  if game_result = "1-0" then { st with white_wins := st.white_wins + 1 }
  else if game_result = "0-1" then { st with black_wins := st.black_wins + 1 }
  else if game_result = "1/2-1/2" then { st with draws := st.draws + 1 }
  else st

/-- Apply one update to the map: the record stored under the update's key
is replaced (the `if fen in self.stats` check, line 471, means absent keys
are dropped). -/
def applyUpdate (m : StatsMap) (u : GameUpdate) : StatsMap :=
  m.map fun p => if p.1 = u.1 then (p.1, updateRecord p.2 u.2.1 u.2.2) else p

/-- Apply one game's batch of updates under the single lock acquisition
(lines 469-491). -/
def applyBatch (m : StatsMap) (b : List GameUpdate) : StatsMap :=
  b.foldl applyUpdate m

/-- Apply a sequence of batched update operations. -/
def applyBatches (m : StatsMap) (bs : List (List GameUpdate)) : StatsMap :=
  bs.foldl applyBatch m

/-- First binding of a key in the map (`self.stats[fen]`). -/
def findVal (k : String) : StatsMap → Option PopularityStats
  | [] => none
  | p :: rest => if p.1 = k then some p.2 else findVal k rest

/-- The ratings of the updates a given key receives from an update list. -/
def ratingsOf (k : String) (l : List GameUpdate) : List ℚ :=
  (l.filter fun u => u.1 = k).map fun u => u.2.1

/-- The update payloads (rating, result) addressed to a given key. -/
def payloadsFor (k : String) (l : List GameUpdate) : List (ℚ × String) :=
  (l.filter fun u => u.1 = k).map fun u => u.2

/-- Record-level fold of a list of (rating, result) payloads. -/
def applyPayloads (st : PopularityStats) (l : List (ℚ × String)) : PopularityStats :=
  l.foldl (fun s u => updateRecord s u.1 u.2) st

/-! ## The game parser (`process_game`, lines 423-495, and `_safe_int`,
lines 497-502) -/

/-- Digits of a decimal literal. -/
def parseDigits : List Char → Option ℕ
  | [] => none
  | l => l.foldl (fun acc c =>
      match acc with
      | none => none
      | some n => if c.isDigit then some (n * 10 + (c.toNat - 48)) else none)
      (some 0)

/-- Strip leading and trailing whitespace from a character list (the
stripping `int()` performs on its string argument). -/
def trimChars (l : List Char) : List Char :=
  ((l.dropWhile Char.isWhitespace).reverse.dropWhile Char.isWhitespace).reverse

/-- Model of Python's `int(value)` on a string: optional surrounding
whitespace, optional sign, then decimal digits; anything else raises
`ValueError` (`none` here). (Python additionally allows single underscores
between digits; the header values relevant here are plain digit strings,
so that corner is not modelled.) -/
def pyInt : String → Option ℤ := fun s =>
  match trimChars s.data with
  | '+' :: rest => (parseDigits rest).map Int.ofNat
  | '-' :: rest => (parseDigits rest).map fun n => -(n : ℤ)
  | l => (parseDigits l).map Int.ofNat

/-- `_safe_int` (lines 497-502): `int(value)` with any `ValueError` /
`TypeError` converted to `0`. -/
def _safe_int (value : String) : ℤ := (pyInt value).getD 0

/-- `headers.get(key, default)` over the PGN header mapping. -/
def headersGet (h : List (String × String)) (k dflt : String) : String :=
  match h.lookup k with
  | some v => v
  | none => dflt

/-- One parsed PGN game as `process_game` consumes it: its headers, and
the FEN of the position standing on the board before each mainline move,
in order.  The FEN computation itself is done by the external
`python-chess` library during the replay loop (lines 452-465); the
position sequence is therefore taken as the abstract interface. -/
structure GameRec where
  headers : List (String × String)
  plies : List String
  deriving Repr, DecidableEq

/-- Outcome of the external `chess.pgn.read_game` call (line 427):
it may raise (malformed input), return `None`, or return a game. -/
inductive ParseOutcome where
  | raises
  | noGame
  | game (g : GameRec)
  deriving Repr, DecidableEq

/-- The update tuples collected by the replay loop (lines 444-465):
positions of the first 70 plies (35 moves * 2, checked before each move)
that lie in the target universe, each paired with the game's average
rating and declared result. -/
def collectUpdates (targets : List String) (g : GameRec) (avg : ℚ)
    (result : String) : List GameUpdate :=
  ((g.plies.take 70).filter fun f => targets.contains f).map
    fun f => (f, avg, result)

/-- `process_game` (lines 423-495).  The whole body runs inside
`try ... except Exception: pass`, so a raising parse (and a `None` game,
line 428-429) leaves the statistics map unchanged and nothing escapes to
the caller; the function is total.  Ratings are read through `_safe_int`
with default `'0'`, games with either rating equal to 0 are discarded
(lines 438-439), the average rating is `(white_elo + black_elo) / 2`
(line 442, exact in binary64 for integer ratings, modelled in `ℚ`), and
the collected updates are applied as one batch (lines 468-491; an empty
batch takes the `if position_updates:` false branch and touches nothing,
which coincides with folding the empty batch). -/
def process_game (targets : List String) (inp : ParseOutcome)
    (stats : StatsMap) : StatsMap :=
  match inp with
  | .raises => stats
  | .noGame => stats
  | .game g =>
    let white_elo := _safe_int (headersGet g.headers "WhiteElo" "0")
    let black_elo := _safe_int (headersGet g.headers "BlackElo" "0")
    let result := headersGet g.headers "Result" "*"
    if white_elo = 0 ∨ black_elo = 0 then stats
    else
      let avg_rating : ℚ := ((white_elo : ℚ) + (black_elo : ℚ)) / 2
      applyBatch stats (collectUpdates targets g avg_rating result)

/-! ## Exact model of the binary64 arithmetic in
`calculate_popularity_scores` (lines 518-525)

The script computes the decile index as `int((i / 10) * n) - 1` in Python
floats (IEEE-754 binary64, round-to-nearest, ties-to-even).  Every float
value reached by that expression is at least `1/16`, hence an integer
multiple of `2^-56`; floats are therefore represented exactly as natural
numbers in fixed-point Q56 (value = numerator / 2^56), and the rounding
itself is carried out with integer arithmetic so that concrete instances
evaluate inside the kernel. -/

/-- Fuel-driven floor of log2 (the fuel only needs to dominate the number
of halvings). -/
def lg2 : ℕ → ℕ → ℕ
  | 0, _ => 0
  | f+1, n => if n ≤ 1 then 0 else lg2 f (n / 2) + 1

/-- `natLog2 n = ⌊log2 n⌋` for `n ≥ 1`. -/
def natLog2 (n : ℕ) : ℕ := lg2 n n

/-- Number of binary digits of `n` (`0` for `0`). -/
def bitlen (n : ℕ) : ℕ := if n = 0 then 0 else natLog2 n + 1

/-- Binade exponent of the positive rational `a / b`: the unique `e` with
`2^e ≤ a/b < 2^(e+1)` (meaningful whenever `a/b ≥ 1/16`, which covers all
values rounded by the script's index expression). -/
def rndE (a b : ℕ) : ℤ :=
  let L := bitlen ((16 * a) / b)
  if b * 2 ^ L ≤ 16 * a then (L : ℤ) - 4 else (L : ℤ) - 5

/-- Numerator of the 53-bit significand scaling `(a/b) * 2^(52-e)`. -/
def rndNum (a b : ℕ) : ℕ := a * 2 ^ ((52 - rndE a b).toNat)

/-- Denominator of the 53-bit significand scaling. -/
def rndDen (a b : ℕ) : ℕ := b * 2 ^ ((rndE a b - 52).toNat)

/-- 53-bit significand of `a / b` rounded to nearest, ties to even. -/
def rndMant (a b : ℕ) : ℕ :=
  let num := rndNum a b
  let den := rndDen a b
  let m0 := num / den
  let r := num % den
  if 2 * r < den then m0
  else if den < 2 * r then m0 + 1
  else if m0 % 2 = 0 then m0 else m0 + 1

/-- The binary64 value nearest to `a / b`, as a Q56 fixed-point numeral
(value = result / 2^56).  Faithful for `1/16 ≤ a/b` (all inputs produced
by the index expression satisfy this). -/
def rndQ56 (a b : ℕ) : ℕ := rndMant a b * 2 ^ ((rndE a b + 4).toNat)

/-- The Python expression `int((i / 10) * n) - 1` followed by the
`if index < 0: index = 0` clamp (lines 522-524): `i / 10` and the `int`
to `float` conversion of `n` are correctly rounded, their product is
correctly rounded again, `int` truncates toward zero, and `ℕ`
subtraction models the clamp at 0. -/
def pyIdx (i n : ℕ) : ℕ :=
  rndQ56 (rndQ56 i 10 * rndQ56 n 1) (2 ^ 112) / 2 ^ 56 - 1

/-! ## The popularity scorer (`calculate_popularity_scores`,
lines 504-553) -/

/-- Insertion of one element into a sorted list. -/
def insertSorted (x : ℕ) : List ℕ → List ℕ
  | [] => [x]
  | y :: ys => if x ≤ y then x :: y :: ys else y :: insertSorted x ys

/-- `game_counts.sort()` (line 516).  Python's list sort produces the
unique ascending reordering of a list of ints; it is modelled by
insertion sort, which produces the same list. -/
def sortNat (l : List ℕ) : List ℕ := l.foldr insertSorted []

/-- `game_counts`: the `games_analyzed` of every record with a positive
count, in map order (line 509). -/
def gameCounts (m : StatsMap) : List ℕ :=
  (m.map fun p => p.2.games_analyzed).filter fun g => 0 < g

/-- The sorted game counts. -/
def sortedCounts (m : StatsMap) : List ℕ := sortNat (gameCounts m)

/-- The ten percentile thresholds (lines 519-525):
`game_counts[int((i / 10) * n) - 1]` for `i = 1..10`, index clamped below
at 0. -/
def percentileThresholds (counts : List ℕ) : List ℕ :=
  (List.range 10).map fun k => counts.getD (pyIdx (k + 1) counts.length) 0

/-- The score loop (lines 534-540): start at 1, bump past every threshold
strictly below the count, stop at the first threshold `≥` the count, cap
at 10. -/
def scoreOf (thresholds : List ℕ) (games : ℕ) : ℕ :=
  min (1 + (thresholds.takeWhile fun t => decide (t < games)).length) 10

/-- The confidence ladder (lines 544-551). -/
def confidenceOf (games : ℕ) : ℚ :=
  if 1000 ≤ games then 1
  else if 100 ≤ games then 8 / 10
  else if 10 ≤ games then 6 / 10
  else 4 / 10

/-- `calculate_popularity_scores` (lines 504-553): collect and sort the
positive game counts (early return leaving the map untouched when there
are none, lines 511-513), compute the ten thresholds, then give each
zero-count record score 0 / confidence 0.0 and each positive record the
decile score and ladder confidence. -/
def calculate_popularity_scores (m : StatsMap) : StatsMap :=
  let counts := sortedCounts m
  if counts.isEmpty then m
  else
    let thresholds := percentileThresholds counts
    m.map fun p =>
      if p.2.games_analyzed = 0 then
        (p.1, { p.2 with popularity_score := 0, confidence_score := 0 })
      else
        (p.1, { p.2 with popularity_score := scoreOf thresholds p.2.games_analyzed,
                         confidence_score := confidenceOf p.2.games_analyzed })

/-- The index formula claimed by the specification,
`clamp(floor(i/10 * n) - 1, 0, n - 1)`, over exact arithmetic
(`ℕ` subtraction models the clamp at 0).  Stated from the spec's words,
for comparison with the script's `pyIdx`. -/
def specIdx (i n : ℕ) : ℕ := min (i * n / 10 - 1) (n - 1)

/-- The threshold list the specification's formula would produce. -/
def specThresholds (counts : List ℕ) : List ℕ :=
  (List.range 10).map fun k => counts.getD (specIdx (k + 1) counts.length) 0

/-! ## Final result records (`save_final_results`, lines 555-593) -/

/-- JSON values appearing in the per-position result records. -/
inductive JVal where
  | num (q : ℚ)
  | str (s : String)
  | null
  deriving Repr, DecidableEq

/-- The per-position record written by `save_final_results`
(lines 564-578): `asdict(stats)` with `analysis_date` freshly set, then
the three derived rate keys, assigned in both branches of the
`if stats.games_analyzed > 0` test — as `bucket / games_analyzed` when
positive, and as `None` (JSON `null`) otherwise.  Rates are modelled in
exact arithmetic. -/
def final_stats_record (st : PopularityStats) (analysis_date : String) :
    List (String × JVal) :=
  [("popularity_score", .num st.popularity_score),
   ("frequency_count", .num st.frequency_count),
   ("white_wins", .num st.white_wins),
   ("black_wins", .num st.black_wins),
   ("draws", .num st.draws),
   ("games_analyzed", .num st.games_analyzed),
   ("avg_rating", match st.avg_rating with | none => .null | some q => .num q),
   ("confidence_score", .num st.confidence_score),
   ("analysis_date", .str analysis_date)] ++
  (if 0 < st.games_analyzed then
    [("white_win_rate", .num ((st.white_wins : ℚ) / (st.games_analyzed : ℚ))),
     ("black_win_rate", .num ((st.black_wins : ℚ) / (st.games_analyzed : ℚ))),
     ("draw_rate", .num ((st.draws : ℚ) / (st.games_analyzed : ℚ)))]
  else
    [("white_win_rate", .null),
     ("black_win_rate", .null),
     ("draw_rate", .null)])

/-! ## Checkpoint writes (`save_checkpoint`, lines 174-192)

The claim about `save_checkpoint` concerns the *file operations* it
performs, so the function is embedded as the sequence of filesystem
effects of its body. -/

/-- Filesystem operations relevant to checkpointing. -/
inductive FileOp where
  | mkdirParents (path : String)
  | openTruncWrite (path : String)
  | jsonDump (path : String)
  | renameFile (src dst : String)
  deriving Repr, DecidableEq

/-- The checkpoint file path (`stats_checkpoint.json`, line 97). -/
def checkpointPath : String := "stats_checkpoint.json"

/-- The filesystem effect trace of `save_checkpoint` (lines 174-192):
ensure the parent directory exists (line 185), then
`open(self.checkpoint_file, 'w')` — which truncates any previous
checkpoint in place — and `json.dump` into that handle (lines 187-188).
No temporary file and no rename is involved. -/
def save_checkpoint_ops : List FileOp :=
  [.mkdirParents "workdir", .openTruncWrite checkpointPath,
   .jsonDump checkpointPath]

/-- The write pattern the specification requires of a checkpoint save:
every write targets a path other than the final one, and the final path
is produced by a rename (write to a temporary location, then atomically
replace). -/
def tempThenAtomicReplace (ops : List FileOp) (final : String) : Bool :=
  (ops.all fun op =>
    match op with
    | .openTruncWrite p => p ≠ final
    | .jsonDump p => p ≠ final
    | _ => true) &&
  (ops.any fun op =>
    match op with
    | .renameFile _ dst => dst = final
    | _ => false)

/-! ## Download retry and the download worker
(`download_file_with_retry`, lines 255-332; `download_worker`,
lines 697-768)

Both are embedded as event-trace functions over an oracle environment
that fixes the outcome of each network attempt and each validation, the
only sources of nondeterminism. -/

/-- Outcome of one download attempt inside `download_file_with_retry`:
the attempt either succeeds end-to-end (downloaded, validated, moved into
place), fails validation of the downloaded temp file (line 312-315,
`continue` with no backoff), fails the temp-to-final move (lines 309-311,
`continue` with no backoff), or raises a transfer exception — non-2xx
status, connection error, interrupted body — which is the only path
through the `except` block and its 30-second backoff (lines 322-330). -/
inductive AttemptResult where
  | ok
  | invalidFile
  | moveFail
  | exc
  deriving Repr, DecidableEq

/-- Oracle environment for one run of the download worker. -/
structure Env where
  existing : String → Option Bool
  attempt : String → ℕ → AttemptResult
  validFinal : String → Bool

/-- Observable events of the download side of the pipeline. -/
inductive Ev where
  | skip (month : String)
  | removeInvalid (month : String)
  | downloadStart (month : String)
  | attempt (month : String) (k : ℕ)
  | sleep30
  | sleep1
  | publish (month : String)
  | setShutdown
  deriving Repr, DecidableEq

/-- The retry loop of `download_file_with_retry` (lines 260-332), from
attempt index `k` with `rem + 1` loop iterations left: success returns
immediately; validation or move failure retries at once (`continue`);
a transfer exception sleeps 30 seconds before the next attempt unless it
was the last one, in which case the function returns failure. -/
def retryGo (env : Env) (month : String) : ℕ → ℕ → Bool × List Ev
  | _, 0 => (false, [])
  | k, rem + 1 =>
    match env.attempt month k with
    | .ok => (true, [.attempt month k])
    | .invalidFile =>
      let p := retryGo env month (k + 1) rem
      (p.1, .attempt month k :: p.2)
    | .moveFail =>
      let p := retryGo env month (k + 1) rem
      (p.1, .attempt month k :: p.2)
    | .exc =>
      if rem = 0 then (false, [.attempt month k])
      else
        let p := retryGo env month (k + 1) rem
        (p.1, .attempt month k :: .sleep30 :: p.2)

/-- `download_file_with_retry(url, filename, max_retries=3)` as called by
the worker (line 742): the pair of its boolean result and its event
trace. -/
def download_file_with_retry (env : Env) (month : String) : Bool × List Ev :=
  retryGo env month 0 3

/-- `download_worker` (lines 697-768) over its month list.  Months in the
completed set are skipped (lines 709-711); an existing valid cache file is
published without downloading (lines 718-729); an existing invalid file is
removed and the month falls through to the download path (lines 730-736);
a successful retried download is re-validated and published followed by
the 1-second pause (lines 742-747, 760), while a failed re-validation or
an exhausted retry sets the global shutdown signal and breaks out of the
loop (lines 748-757).  The loop-top shutdown check (line 704) never fires
in this single-worker model because the worker breaks immediately after
setting the signal itself. -/
def download_worker (env : Env) (processed : String → Bool) :
    List String → List Ev
  | [] => []
  | month :: rest =>
    if processed month then .skip month :: download_worker env processed rest
    else
      let afterDownload : List Ev :=
        let p := download_file_with_retry env month
        .downloadStart month :: p.2 ++
          (if p.1 then
            if env.validFinal month then
              .publish month :: .sleep1 :: download_worker env processed rest
            else [.removeInvalid month, .setShutdown]
          else [.setShutdown])
      match env.existing month with
      | some true => .publish month :: download_worker env processed rest
      | some false => .removeInvalid month :: afterDownload
      | none => afterDownload

/-- The orchestrator's work-list filter (line 616):
`[month for month in months if month not in self.processed_months]`. -/
def remainingMonths (months : List String) (processed : String → Bool) :
    List String :=
  months.filter fun month => !(processed month)

/-- The sequence of months published to the transfer queue, in order. -/
def publishedOf (evs : List Ev) : List String :=
  evs.filterMap fun e =>
    match e with
    | .publish month => some month
    | _ => none

/-- Number of download attempts in a trace. -/
def countAttempts (evs : List Ev) : ℕ :=
  evs.countP fun e =>
    match e with
    | .attempt _ _ => true
    | _ => false

/-- Number of 30-second backoff waits in a trace. -/
def countSleeps (evs : List Ev) : ℕ :=
  evs.countP fun e =>
    match e with
    | .sleep30 => true
    | _ => false

/-- Checks that a 30-second wait separates every two consecutive download
attempts of a trace (the flag records an attempt not yet followed by a
wait). -/
def waitsBetweenAttempts : Bool → List Ev → Bool
  | _, [] => true
  | f, .attempt _ _ :: rest => if f then false else waitsBetweenAttempts true rest
  | _, .sleep30 :: rest => waitsBetweenAttempts false rest
  | f, _ :: rest => waitsBetweenAttempts f rest

/-! ## Concrete maps used to exercise the scorer -/

/-- Default pair for list indexing. -/
def dfltRec : String × PopularityStats := ("", PopularityStats.init)

/-- A two-record map with game counts 2 and 5. -/
def mW6 : StatsMap :=
  [("a", { PopularityStats.init with games_analyzed := 2 }),
   ("b", { PopularityStats.init with games_analyzed := 5 })]

/-- The first record of the scored two-record map. -/
def pW6 : String × PopularityStats :=
  (calculate_popularity_scores mW6).getD 0 dfltRec

/-- The second record of the scored two-record map. -/
def qW6 : String × PopularityStats :=
  (calculate_popularity_scores mW6).getD 1 dfltRec

/-- Ninety records with game counts 1 through 90: the smallest population
on which the script's float index expression deviates from exact
arithmetic. -/
def m90 : StatsMap :=
  (List.range 90).map fun j =>
    (toString j, { PopularityStats.init with games_analyzed := j + 1 })

/-! ## Aggregator lemmas -/

theorem updateRecord_games (st : PopularityStats) (r : ℚ) (res : String) :
    (updateRecord st r res).games_analyzed = st.games_analyzed + 1 := by
  dsimp only [updateRecord]; split_ifs <;> rfl

theorem updateRecord_frequency (st : PopularityStats) (r : ℚ) (res : String) :
    (updateRecord st r res).frequency_count = st.frequency_count + 1 := by
  dsimp only [updateRecord]; split_ifs <;> rfl

theorem updateRecord_white (st : PopularityStats) (r : ℚ) (res : String) :
    (updateRecord st r res).white_wins =
      st.white_wins + (if res = "1-0" then 1 else 0) := by
  dsimp only [updateRecord]; split_ifs <;> simp_all

theorem updateRecord_black (st : PopularityStats) (r : ℚ) (res : String) :
    (updateRecord st r res).black_wins =
      st.black_wins + (if res = "0-1" then 1 else 0) := by
  dsimp only [updateRecord]; split_ifs <;> simp_all

theorem updateRecord_draws (st : PopularityStats) (r : ℚ) (res : String) :
    (updateRecord st r res).draws =
      st.draws + (if res = "1/2-1/2" then 1 else 0) := by
  dsimp only [updateRecord]; split_ifs <;> simp_all

theorem updateRecord_score (st : PopularityStats) (r : ℚ) (res : String) :
    (updateRecord st r res).popularity_score = st.popularity_score := by
  dsimp only [updateRecord]; split_ifs <;> rfl

theorem updateRecord_confidence (st : PopularityStats) (r : ℚ) (res : String) :
    (updateRecord st r res).confidence_score = st.confidence_score := by
  dsimp only [updateRecord]; split_ifs <;> rfl

theorem updateRecord_date (st : PopularityStats) (r : ℚ) (res : String) :
    (updateRecord st r res).analysis_date = st.analysis_date := by
  dsimp only [updateRecord]; split_ifs <;> rfl

theorem updateRecord_avg_none (st : PopularityStats) (r : ℚ) (res : String)
    (h : st.avg_rating = none) : (updateRecord st r res).avg_rating = some r := by
  dsimp only [updateRecord]; rw [h]; split_ifs <;> rfl

theorem updateRecord_avg_some (st : PopularityStats) (r a : ℚ) (res : String)
    (h : st.avg_rating = some a) :
    (updateRecord st r res).avg_rating =
      some ((a * (st.games_analyzed : ℚ) + r) / ((st.games_analyzed : ℚ) + 1)) := by
  dsimp only [updateRecord]; rw [h]
  have hc : ((st.games_analyzed + 1 : ℕ) : ℚ) - 1 = (st.games_analyzed : ℚ) := by
    push_cast; ring
  split_ifs <;> simp only [] <;> rw [hc] <;> push_cast <;> ring_nf

theorem findVal_applyUpdate (k : String) (m : StatsMap) (u : GameUpdate) :
    findVal k (applyUpdate m u) =
      (findVal k m).map fun st =>
        if u.1 = k then updateRecord st u.2.1 u.2.2 else st := by
  induction m with
  | nil => rfl
  | cons p rest ih =>
    have hcons : applyUpdate (p :: rest) u =
        (if p.1 = u.1 then (p.1, updateRecord p.2 u.2.1 u.2.2) else p) ::
          applyUpdate rest u := rfl
    rw [hcons]
    by_cases hu : p.1 = u.1 <;> by_cases hp : p.1 = k
    · have huk : u.1 = k := by rw [← hu]; exact hp
      simp [findVal, if_pos hu, hp, huk]
    · have huk : ¬ u.1 = k := by rw [← hu]; exact hp
      simp [findVal, if_pos hu, hp, huk, ih]
    · have huk : ¬ u.1 = k := fun h => hu (hp.trans h.symm)
      rw [if_neg hu]
      simp [findVal, hp, huk]
    · rw [if_neg hu]
      simp [findVal, hp, ih]

theorem payloadsFor_cons (k : String) (u : GameUpdate) (l : List GameUpdate) :
    payloadsFor k (u :: l) =
      if u.1 = k then u.2 :: payloadsFor k l else payloadsFor k l := by
  by_cases h : u.1 = k <;> simp [payloadsFor, h]

theorem findVal_applyBatch (k : String) (m : StatsMap) (b : List GameUpdate) :
    findVal k (applyBatch m b) =
      (findVal k m).map fun st => applyPayloads st (payloadsFor k b) := by
  induction b generalizing m with
  | nil =>
    cases h : findVal k m <;> simp [applyBatch, applyPayloads, payloadsFor, h]
  | cons u b ih =>
    have : applyBatch m (u :: b) = applyBatch (applyUpdate m u) b := rfl
    rw [this, ih, findVal_applyUpdate, payloadsFor_cons]
    cases h : findVal k m with
    | none => rfl
    | some st =>
      by_cases hu : u.1 = k <;> simp [hu, applyPayloads]

theorem applyBatches_eq_flatten (m : StatsMap) (bs : List (List GameUpdate)) :
    applyBatches m bs = applyBatch m bs.flatten := by
  induction bs generalizing m with
  | nil => rfl
  | cons b bs ih =>
    show applyBatches (applyBatch m b) bs = _
    rw [ih]
    simp only [List.flatten_cons, applyBatch, List.foldl_append]

theorem applyPayloads_counts (l : List (ℚ × String)) (st : PopularityStats) :
    (applyPayloads st l).games_analyzed = st.games_analyzed + l.length ∧
    (applyPayloads st l).frequency_count = st.frequency_count + l.length ∧
    (applyPayloads st l).popularity_score = st.popularity_score ∧
    (applyPayloads st l).confidence_score = st.confidence_score ∧
    (applyPayloads st l).analysis_date = st.analysis_date := by
  induction l generalizing st with
  | nil => simp [applyPayloads]
  | cons u l ih =>
    have step : applyPayloads st (u :: l) =
        applyPayloads (updateRecord st u.1 u.2) l := rfl
    rw [step]
    obtain ⟨h1, h2, h3, h4, h5⟩ := ih (updateRecord st u.1 u.2)
    refine ⟨?_, ?_, ?_, ?_, ?_⟩
    · rw [h1, updateRecord_games, List.length_cons]; omega
    · rw [h2, updateRecord_frequency, List.length_cons]; omega
    · rw [h3, updateRecord_score]
    · rw [h4, updateRecord_confidence]
    · rw [h5, updateRecord_date]

theorem applyPayloads_avg (l : List (ℚ × String)) (st : PopularityStats) (a : ℚ)
    (h : st.avg_rating = some a) (hg : st.games_analyzed ≠ 0) :
    (applyPayloads st l).avg_rating =
      some (((st.games_analyzed : ℚ) * a + (l.map Prod.fst).sum) /
        ((st.games_analyzed : ℚ) + (l.length : ℚ))) := by
  induction l generalizing st a with
  | nil =>
    have hgq : (st.games_analyzed : ℚ) ≠ 0 := Nat.cast_ne_zero.mpr hg
    simp only [applyPayloads, List.foldl_nil, List.map_nil, List.sum_nil,
      List.length_nil, Nat.cast_zero, add_zero, h]
    congr 1
    exact (mul_div_cancel_left₀ a hgq).symm
  | cons u l ih =>
    have step : applyPayloads st (u :: l) =
        applyPayloads (updateRecord st u.1 u.2) l := rfl
    rw [step]
    have havg := updateRecord_avg_some st u.1 a u.2 h
    have hgames := updateRecord_games st u.1 u.2
    have hg' : (updateRecord st u.1 u.2).games_analyzed ≠ 0 := by omega
    rw [ih _ _ havg hg']
    have hgq : (st.games_analyzed : ℚ) + 1 ≠ 0 := by positivity
    congr 1
    rw [hgames]
    push_cast
    have h2 : (st.games_analyzed : ℚ) + 1 + (l.length : ℚ) ≠ 0 := by positivity
    have h3 : (st.games_analyzed : ℚ) + ((l.length : ℚ) + 1) ≠ 0 := by positivity
    field_simp
    ring

theorem ratingsOf_eq_payloads (k : String) (l : List GameUpdate) :
    ratingsOf k l = (payloadsFor k l).map Prod.fst := by
  simp only [ratingsOf, payloadsFor, List.map_map]
  rfl

theorem findVal_applyBatches_mean (bs : List (List GameUpdate)) (m : StatsMap)
    (k : String) (h0 : findVal k m = some PopularityStats.init)
    (hne : ratingsOf k bs.flatten ≠ []) :
    ∃ st, findVal k (applyBatches m bs) = some st ∧
      st.avg_rating = some ((ratingsOf k bs.flatten).sum /
        ((ratingsOf k bs.flatten).length : ℚ)) ∧
      st.games_analyzed = (ratingsOf k bs.flatten).length := by
  rw [applyBatches_eq_flatten, findVal_applyBatch, h0]
  refine ⟨_, rfl, ?_, ?_⟩
  · rw [ratingsOf_eq_payloads] at hne ⊢
    rcases hp : payloadsFor k bs.flatten with _ | ⟨u, rest⟩
    · exact absurd (by simpa using congrArg (List.map Prod.fst) hp) hne
    · dsimp only
      have step : applyPayloads PopularityStats.init (u :: rest) =
          applyPayloads (updateRecord PopularityStats.init u.1 u.2) rest := rfl
      rw [step]
      have havg : (updateRecord PopularityStats.init u.1 u.2).avg_rating = some u.1 :=
        updateRecord_avg_none _ _ _ rfl
      have hg1 : (updateRecord PopularityStats.init u.1 u.2).games_analyzed = 1 :=
        updateRecord_games _ _ _
      have := applyPayloads_avg rest (updateRecord PopularityStats.init u.1 u.2)
        u.1 havg (by omega)
      rw [this, hg1]
      congr 1
      simp only [List.map_cons, List.sum_cons, List.length_cons, List.length_map]
      push_cast
      ring
  · rw [ratingsOf_eq_payloads, List.length_map]
    have h1 := (applyPayloads_counts (payloadsFor k bs.flatten) PopularityStats.init).1
    have h2 : PopularityStats.init.games_analyzed = 0 := rfl
    dsimp only
    omega

/-- C1: over exact arithmetic, after any sequence of batched updates
applied to a map holding the zero-valued record at key `k`, the record's
`avg_rating` is the arithmetic mean of all ratings applied for `k`, and
any regrouping/reordering of the same updates produces the same
average. -/
theorem avg_rating_is_exact_mean (bs : List (List GameUpdate)) (m : StatsMap)
    (k : String) (h0 : findVal k m = some PopularityStats.init)
    (hne : ratingsOf k bs.flatten ≠ []) :
    ∃ st, findVal k (applyBatches m bs) = some st ∧
      st.avg_rating = some ((ratingsOf k bs.flatten).sum /
        ((ratingsOf k bs.flatten).length : ℚ)) ∧
      st.games_analyzed = (ratingsOf k bs.flatten).length ∧
      ∀ bs' : List (List GameUpdate), bs'.flatten.Perm bs.flatten →
        ∃ st', findVal k (applyBatches m bs') = some st' ∧
          st'.avg_rating = st.avg_rating := by
  obtain ⟨st, hfind, havg, hgames⟩ := findVal_applyBatches_mean bs m k h0 hne
  refine ⟨st, hfind, havg, hgames, ?_⟩
  intro bs' hperm
  have hratperm : (ratingsOf k bs'.flatten).Perm (ratingsOf k bs.flatten) :=
    (hperm.filter _).map _
  have hne' : ratingsOf k bs'.flatten ≠ [] := by
    intro hnil
    exact hne (List.eq_nil_of_length_eq_zero (by
      rw [← hratperm.length_eq, hnil]; rfl))
  obtain ⟨st', hfind', havg', _⟩ := findVal_applyBatches_mean bs' m k h0 hne'
  refine ⟨st', hfind', ?_⟩
  rw [havg', havg, hratperm.sum_eq, hratperm.length_eq]

/-- Closed instance of C1: key `"e4"` receives ratings 1500 and 1600 in
two batches; the running average is their arithmetic mean. -/
theorem avg_rating_is_exact_mean_witness :
    findVal "e4" [("e4", PopularityStats.init)] = some PopularityStats.init ∧
    ratingsOf "e4"
      ([[("e4", (1500 : ℚ), "1-0")], [("e4", (1600 : ℚ), "0-1")]] :
        List (List GameUpdate)).flatten ≠ [] ∧
    ∃ st, findVal "e4" (applyBatches [("e4", PopularityStats.init)]
        [[("e4", (1500 : ℚ), "1-0")], [("e4", (1600 : ℚ), "0-1")]]) = some st ∧
      st.avg_rating = some ((ratingsOf "e4"
          ([[("e4", (1500 : ℚ), "1-0")], [("e4", (1600 : ℚ), "0-1")]] :
            List (List GameUpdate)).flatten).sum /
        ((ratingsOf "e4"
          ([[("e4", (1500 : ℚ), "1-0")], [("e4", (1600 : ℚ), "0-1")]] :
            List (List GameUpdate)).flatten).length : ℚ)) ∧
      st.games_analyzed = (ratingsOf "e4"
          ([[("e4", (1500 : ℚ), "1-0")], [("e4", (1600 : ℚ), "0-1")]] :
            List (List GameUpdate)).flatten).length ∧
      ∀ bs' : List (List GameUpdate),
        bs'.flatten.Perm ([[("e4", (1500 : ℚ), "1-0")],
            [("e4", (1600 : ℚ), "0-1")]] : List (List GameUpdate)).flatten →
        ∃ st', findVal "e4" (applyBatches [("e4", PopularityStats.init)] bs') =
            some st' ∧ st'.avg_rating = st.avg_rating := by
  refine ⟨rfl, by decide, ?_⟩
  exact avg_rating_is_exact_mean _ _ _ rfl (by decide)

theorem bucket_indicators_le_one (res : String) :
    (if res = "1-0" then 1 else 0) + (if res = "0-1" then 1 else 0) +
      (if res = "1/2-1/2" then 1 else 0) ≤ 1 := by
  by_cases h1 : res = "1-0" <;> by_cases h2 : res = "0-1" <;>
    by_cases h3 : res = "1/2-1/2" <;> simp_all

theorem applyPayloads_inv (l : List (ℚ × String)) (st : PopularityStats)
    (h1 : st.frequency_count = st.games_analyzed)
    (h2 : st.white_wins + st.black_wins + st.draws ≤ st.games_analyzed) :
    (applyPayloads st l).frequency_count = (applyPayloads st l).games_analyzed ∧
    (applyPayloads st l).white_wins + (applyPayloads st l).black_wins +
      (applyPayloads st l).draws ≤ (applyPayloads st l).games_analyzed := by
  induction l generalizing st with
  | nil => exact ⟨h1, h2⟩
  | cons u l ih =>
    have step : applyPayloads st (u :: l) =
        applyPayloads (updateRecord st u.1 u.2) l := rfl
    rw [step]
    refine ih (updateRecord st u.1 u.2) ?_ ?_
    · rw [updateRecord_frequency, updateRecord_games, h1]
    · rw [updateRecord_white, updateRecord_black, updateRecord_draws,
        updateRecord_games]
      have := bucket_indicators_le_one u.2
      omega

/-- C5: every record reachable from the zero-valued one through batched
updates keeps `frequency_count = games_analyzed` and
`white_wins + black_wins + draws ≤ games_analyzed`; each single update
adds one to `games_analyzed` and `frequency_count` and adds one to at
most one result bucket — none when the result is not one of the three
tokens. -/
theorem stats_invariants_preserved (bs : List (List GameUpdate)) (m : StatsMap)
    (k : String) (h0 : findVal k m = some PopularityStats.init) :
    (∃ st, findVal k (applyBatches m bs) = some st ∧
      st.frequency_count = st.games_analyzed ∧
      st.white_wins + st.black_wins + st.draws ≤ st.games_analyzed) ∧
    ∀ (st : PopularityStats) (r : ℚ) (res : String),
      (updateRecord st r res).games_analyzed = st.games_analyzed + 1 ∧
      (updateRecord st r res).frequency_count = st.frequency_count + 1 ∧
      (updateRecord st r res).white_wins + (updateRecord st r res).black_wins +
          (updateRecord st r res).draws =
        st.white_wins + st.black_wins + st.draws +
          (if res = "1-0" ∨ res = "0-1" ∨ res = "1/2-1/2" then 1 else 0) := by
  constructor
  · rw [applyBatches_eq_flatten, findVal_applyBatch, h0]
    refine ⟨_, rfl, ?_⟩
    exact applyPayloads_inv _ _ rfl (by exact Nat.le_refl 0)
  · intro st r res
    refine ⟨updateRecord_games st r res, updateRecord_frequency st r res, ?_⟩
    rw [updateRecord_white, updateRecord_black, updateRecord_draws]
    by_cases h1 : res = "1-0" <;> by_cases h2 : res = "0-1" <;>
      by_cases h3 : res = "1/2-1/2" <;> simp_all <;> omega

/-- Closed instance of C5 at a concrete batch, including an update whose
result token `"*"` hits no bucket. -/
theorem stats_invariants_preserved_witness :
    findVal "d4" [("d4", PopularityStats.init)] = some PopularityStats.init ∧
    (∃ st, findVal "d4" (applyBatches [("d4", PopularityStats.init)]
        [[("d4", (1500 : ℚ), "1-0"), ("d4", (1400 : ℚ), "*")]]) = some st ∧
      st.frequency_count = st.games_analyzed ∧
      st.white_wins + st.black_wins + st.draws ≤ st.games_analyzed) := by
  refine ⟨rfl, ?_⟩
  exact (stats_invariants_preserved
    [[("d4", (1500 : ℚ), "1-0"), ("d4", (1400 : ℚ), "*")]]
    [("d4", PopularityStats.init)] "d4" rfl).1

/-- C7: a game record whose `WhiteElo` or `BlackElo` header is missing or
holds the value `"0"` is discarded whole: `process_game` returns the
statistics map unchanged. -/
theorem ratingless_game_discarded (targets : List String) (g : GameRec)
    (s : StatsMap)
    (h : g.headers.lookup "WhiteElo" = none ∨
         g.headers.lookup "WhiteElo" = some "0" ∨
         g.headers.lookup "BlackElo" = none ∨
         g.headers.lookup "BlackElo" = some "0") :
    process_game targets (ParseOutcome.game g) s = s := by
  have key : _safe_int (headersGet g.headers "WhiteElo" "0") = 0 ∨
      _safe_int (headersGet g.headers "BlackElo" "0") = 0 := by
    rcases h with h | h | h | h
    · left; rw [headersGet, h]; decide
    · left; rw [headersGet, h]; decide
    · right; rw [headersGet, h]; decide
    · right; rw [headersGet, h]; decide
  dsimp only [process_game]
  rw [if_pos key]

/-- Closed instance of C7: a game with `WhiteElo` equal to `"0"` leaves
the map untouched. -/
theorem ratingless_game_discarded_witness :
    (GameRec.mk [("WhiteElo", "0"), ("BlackElo", "1500"), ("Result", "1-0")]
        ["startfen"]).headers.lookup "WhiteElo" = some "0" ∧
    process_game ["startfen"]
      (ParseOutcome.game (GameRec.mk
        [("WhiteElo", "0"), ("BlackElo", "1500"), ("Result", "1-0")]
        ["startfen"]))
      [("startfen", PopularityStats.init)] =
      [("startfen", PopularityStats.init)] := by
  refine ⟨rfl, ?_⟩
  exact ratingless_game_discarded _ _ _ (Or.inr (Or.inl rfl))

/-- C10: `process_game` is total at its interface — the outer
`try/except` is modelled by the `raises` branch returning the map
unchanged — and every unusable record (parse raised, parse returned no
game, a rating header that is non-numeric or zero under `_safe_int`, or a
replay reaching no position of the target universe) leaves the statistics
map completely unchanged. -/
theorem process_game_unusable_unchanged (targets : List String)
    (inp : ParseOutcome) (s : StatsMap)
    (h : inp = ParseOutcome.raises ∨ inp = ParseOutcome.noGame ∨
      ∃ g, inp = ParseOutcome.game g ∧
        (_safe_int (headersGet g.headers "WhiteElo" "0") = 0 ∨
         _safe_int (headersGet g.headers "BlackElo" "0") = 0 ∨
         (g.plies.take 70).filter (fun f => targets.contains f) = [])) :
    process_game targets inp s = s := by
  rcases h with h | h | ⟨g, hg, h⟩
  · subst h; rfl
  · subst h; rfl
  · subst hg
    dsimp only [process_game]
    rcases h with h | h | h
    · rw [if_pos (Or.inl h)]
    · rw [if_pos (Or.inr h)]
    · by_cases hguard : _safe_int (headersGet g.headers "WhiteElo" "0") = 0 ∨
          _safe_int (headersGet g.headers "BlackElo" "0") = 0
      · rw [if_pos hguard]
      · rw [if_neg hguard]
        dsimp only [collectUpdates]
        rw [h]
        rfl

/-- Closed instance of C10: a game with a non-numeric `WhiteElo` header
(treated as rating 0) leaves the map unchanged. -/
theorem process_game_unusable_unchanged_witness :
    _safe_int (headersGet (GameRec.mk
      [("WhiteElo", "??"), ("BlackElo", "1500"), ("Result", "0-1")]
      ["f1"]).headers "WhiteElo" "0") = 0 ∧
    process_game ["f1"]
      (ParseOutcome.game (GameRec.mk
        [("WhiteElo", "??"), ("BlackElo", "1500"), ("Result", "0-1")] ["f1"]))
      [("f1", PopularityStats.init)] = [("f1", PopularityStats.init)] := by
  refine ⟨by decide, ?_⟩
  exact process_game_unusable_unchanged _ _ _
    (Or.inr (Or.inr ⟨_, rfl, Or.inl (by decide)⟩))

/-! ## Worker-level lemmas (C2, C8) -/

theorem retryGo_events (env : Env) (month : String) :
    ∀ (rem k : ℕ) (e : Ev), e ∈ (retryGo env month k rem).2 →
      (∃ j, e = Ev.attempt month j) ∨ e = Ev.sleep30 := by
  intro rem
  induction rem with
  | zero => intro k e he; simp [retryGo] at he
  | succ rem ih =>
    intro k e he
    rw [retryGo] at he
    rcases hA : env.attempt month k with _ | _ | _ | _ <;> rw [hA] at he
    · simp at he; exact Or.inl ⟨k, he⟩
    · rcases List.mem_cons.1 he with h | h
      · exact Or.inl ⟨k, h⟩
      · exact ih (k + 1) e h
    · rcases List.mem_cons.1 he with h | h
      · exact Or.inl ⟨k, h⟩
      · exact ih (k + 1) e h
    · by_cases hrem : rem = 0
      · rw [if_pos hrem] at he; simp at he; exact Or.inl ⟨k, he⟩
      · rw [if_neg hrem] at he
        rcases List.mem_cons.1 he with h | h
        · exact Or.inl ⟨k, h⟩
        · rcases List.mem_cons.1 h with h2 | h2
          · exact Or.inr h2
          · exact ih (k + 1) e h2

theorem retry_trace_no_publish (env : Env) (month m : String) :
    Ev.publish m ∉ (download_file_with_retry env month).2 := by
  intro hmem
  rcases retryGo_events env month 3 0 _ hmem with ⟨j, hj⟩ | hj <;> exact absurd hj (by simp)

theorem retry_trace_no_downloadStart (env : Env) (month m : String) :
    Ev.downloadStart m ∉ (download_file_with_retry env month).2 := by
  intro hmem
  rcases retryGo_events env month 3 0 _ hmem with ⟨j, hj⟩ | hj <;> exact absurd hj (by simp)

theorem worker_eq_skip (env : Env) (processed : String → Bool) (month : String)
    (rest : List String) (hm : processed month = true) :
    download_worker env processed (month :: rest) =
      Ev.skip month :: download_worker env processed rest := by
  rw [download_worker, if_pos hm]

theorem worker_eq_existing_valid (env : Env) (processed : String → Bool)
    (month : String) (rest : List String) (hm : ¬ processed month = true)
    (hex : env.existing month = some true) :
    download_worker env processed (month :: rest) =
      Ev.publish month :: download_worker env processed rest := by
  rw [download_worker, if_neg hm, hex]

theorem worker_eq_download (env : Env) (processed : String → Bool)
    (month : String) (rest : List String) (hm : ¬ processed month = true)
    (hex : env.existing month = none) :
    download_worker env processed (month :: rest) =
      Ev.downloadStart month :: (download_file_with_retry env month).2 ++
        (if (download_file_with_retry env month).1 then
          (if env.validFinal month then
            Ev.publish month :: Ev.sleep1 :: download_worker env processed rest
          else [Ev.removeInvalid month, Ev.setShutdown])
        else [Ev.setShutdown]) := by
  rw [download_worker, if_neg hm, hex]

theorem worker_eq_existing_invalid (env : Env) (processed : String → Bool)
    (month : String) (rest : List String) (hm : ¬ processed month = true)
    (hex : env.existing month = some false) :
    download_worker env processed (month :: rest) =
      Ev.removeInvalid month ::
        Ev.downloadStart month :: (download_file_with_retry env month).2 ++
        (if (download_file_with_retry env month).1 then
          (if env.validFinal month then
            Ev.publish month :: Ev.sleep1 :: download_worker env processed rest
          else [Ev.removeInvalid month, Ev.setShutdown])
        else [Ev.setShutdown]) := by
  rw [download_worker, if_neg hm, hex]
  rfl

theorem download_worker_no_completed (env : Env) (processed : String → Bool)
    (U : String) (hU : processed U = true) :
    ∀ months : List String,
      Ev.downloadStart U ∉ download_worker env processed months ∧
      Ev.publish U ∉ download_worker env processed months := by
  intro months
  induction months with
  | nil => simp [download_worker]
  | cons month rest ih =>
    by_cases hm : processed month = true
    · rw [worker_eq_skip env processed month rest hm]
      constructor <;> intro hmem <;> rcases List.mem_cons.1 hmem with h | h
      · exact absurd h (by simp)
      · exact ih.1 h
      · exact absurd h (by simp)
      · exact ih.2 h
    · have hne : U ≠ month := fun h => hm (h ▸ hU)
      have tailcase : ∀ e : Ev,
          e ∈ (if (download_file_with_retry env month).1 then
            (if env.validFinal month then
              Ev.publish month :: Ev.sleep1 :: download_worker env processed rest
            else [Ev.removeInvalid month, Ev.setShutdown])
          else [Ev.setShutdown]) →
          e = Ev.publish month ∨ e = Ev.sleep1 ∨ e = Ev.removeInvalid month ∨
            e = Ev.setShutdown ∨ e ∈ download_worker env processed rest := by
        intro e he
        split at he
        · split at he
          · rcases List.mem_cons.1 he with h | h
            · exact Or.inl h
            · rcases List.mem_cons.1 h with h2 | h2
              · exact Or.inr (Or.inl h2)
              · exact Or.inr (Or.inr (Or.inr (Or.inr h2)))
          · rcases List.mem_cons.1 he with h | h
            · exact Or.inr (Or.inr (Or.inl h))
            · simp at h
              exact Or.inr (Or.inr (Or.inr (Or.inl h)))
        · simp at he
          exact Or.inr (Or.inr (Or.inr (Or.inl he)))
      have core : ∀ e : Ev,
          e ∈ Ev.downloadStart month :: (download_file_with_retry env month).2 ++
            (if (download_file_with_retry env month).1 then
              (if env.validFinal month then
                Ev.publish month :: Ev.sleep1 :: download_worker env processed rest
              else [Ev.removeInvalid month, Ev.setShutdown])
            else [Ev.setShutdown]) →
          e ≠ Ev.downloadStart U ∧ e ≠ Ev.publish U ∨
            e ∈ download_worker env processed rest := by
        intro e he
        rcases List.mem_cons.1 he with h | h
        · subst h
          exact Or.inl ⟨by simp [Ne.symm hne], by simp⟩
        · rcases List.mem_append.1 h with h | h
          · rcases retryGo_events env month 3 0 e h with ⟨j, hj⟩ | hj <;>
              subst hj <;> exact Or.inl ⟨by simp, by simp⟩
          · rcases tailcase e h with h | h | h | h | h
            · subst h; exact Or.inl ⟨by simp, by simp [Ne.symm hne]⟩
            · subst h; exact Or.inl ⟨by simp, by simp⟩
            · subst h; exact Or.inl ⟨by simp, by simp⟩
            · subst h; exact Or.inl ⟨by simp, by simp⟩
            · exact Or.inr h
      rcases hex : env.existing month with _ | b
      · rw [worker_eq_download env processed month rest hm hex]
        constructor <;> intro hmem
        · rcases core _ hmem with h | h
          · exact h.1 rfl
          · exact ih.1 h
        · rcases core _ hmem with h | h
          · exact h.2 rfl
          · exact ih.2 h
      · cases b
        · rw [worker_eq_existing_invalid env processed month rest hm hex]
          constructor <;> intro hmem <;> rcases List.mem_cons.1 hmem with h | h
          · exact absurd h (by simp)
          · rcases core _ h with h2 | h2
            · exact h2.1 rfl
            · exact ih.1 h2
          · exact absurd h (by simp)
          · rcases core _ h with h2 | h2
            · exact h2.2 rfl
            · exact ih.2 h2
        · rw [worker_eq_existing_valid env processed month rest hm hex]
          constructor <;> intro hmem <;> rcases List.mem_cons.1 hmem with h | h
          · exact absurd h (by simp)
          · exact ih.1 h
          · exact absurd h (by simp [hne])
          · exact ih.2 h

theorem publishedOf_retry (env : Env) (month : String) :
    publishedOf (download_file_with_retry env month).2 = [] := by
  refine List.filterMap_eq_nil_iff.mpr ?_
  intro e he
  rcases retryGo_events env month 3 0 e he with ⟨j, hj⟩ | hj <;> subst hj <;> rfl

theorem publishedOf_nil : publishedOf [] = [] := rfl

theorem publishedOf_cons_publish (m : String) (l : List Ev) :
    publishedOf (Ev.publish m :: l) = m :: publishedOf l := by
  simp [publishedOf, List.filterMap_cons]

theorem publishedOf_cons_skip (m : String) (l : List Ev) :
    publishedOf (Ev.skip m :: l) = publishedOf l := by
  simp [publishedOf, List.filterMap_cons]

theorem publishedOf_cons_removeInvalid (m : String) (l : List Ev) :
    publishedOf (Ev.removeInvalid m :: l) = publishedOf l := by
  simp [publishedOf, List.filterMap_cons]

theorem publishedOf_cons_downloadStart (m : String) (l : List Ev) :
    publishedOf (Ev.downloadStart m :: l) = publishedOf l := by
  simp [publishedOf, List.filterMap_cons]

theorem publishedOf_cons_sleep1 (l : List Ev) :
    publishedOf (Ev.sleep1 :: l) = publishedOf l := by
  simp [publishedOf, List.filterMap_cons]

theorem publishedOf_cons_setShutdown (l : List Ev) :
    publishedOf (Ev.setShutdown :: l) = publishedOf l := by
  simp [publishedOf, List.filterMap_cons]

theorem publishedOf_append (a b : List Ev) :
    publishedOf (a ++ b) = publishedOf a ++ publishedOf b := by
  simp [publishedOf, List.filterMap_append]

/-- The months a single work-list entry contributes to the published
sequence. -/
def monthPub (env : Env) (processed : String → Bool) (month : String) :
    List String :=
  if processed month then []
  else match env.existing month with
    | some true => [month]
    | _ => if (download_file_with_retry env month).1 ∧ env.validFinal month
           then [month] else []

/-- Whether the worker loop proceeds past a work-list entry (it stops
only when a download fails for good or the final validation fails). -/
def monthContinues (env : Env) (processed : String → Bool) (month : String) :
    Bool :=
  processed month || (env.existing month == some true) ||
    ((download_file_with_retry env month).1 && env.validFinal month)

theorem published_cons (env : Env) (processed : String → Bool) (month : String)
    (rest : List String) :
    publishedOf (download_worker env processed (month :: rest)) =
      monthPub env processed month ++
        (if monthContinues env processed month then
          publishedOf (download_worker env processed rest) else []) := by
  by_cases hm : processed month = true
  · rw [worker_eq_skip env processed month rest hm, publishedOf_cons_skip]
    simp [monthPub, monthContinues, hm]
  · rcases hex : env.existing month with _ | b
    · rw [worker_eq_download env processed month rest hm hex,
        publishedOf_append, publishedOf_cons_downloadStart, publishedOf_retry]
      by_cases hr : (download_file_with_retry env month).1 = true
      · by_cases hv : env.validFinal month = true
        · rw [if_pos hr, if_pos hv, publishedOf_cons_publish,
            publishedOf_cons_sleep1]
          simp [monthPub, monthContinues, hm, hex, hr, hv]
        · rw [if_pos hr, if_neg hv, publishedOf_cons_removeInvalid,
            publishedOf_cons_setShutdown, publishedOf_nil]
          simp [monthPub, monthContinues, hm, hex, hr, hv]
      · rw [if_neg hr, publishedOf_cons_setShutdown, publishedOf_nil]
        simp [monthPub, monthContinues, hm, hex, hr]
    · cases b
      · rw [worker_eq_existing_invalid env processed month rest hm hex,
          publishedOf_append, publishedOf_cons_removeInvalid,
          publishedOf_cons_downloadStart, publishedOf_retry]
        by_cases hr : (download_file_with_retry env month).1 = true
        · by_cases hv : env.validFinal month = true
          · rw [if_pos hr, if_pos hv, publishedOf_cons_publish,
              publishedOf_cons_sleep1]
            simp [monthPub, monthContinues, hm, hex, hr, hv]
          · rw [if_pos hr, if_neg hv, publishedOf_cons_removeInvalid,
              publishedOf_cons_setShutdown, publishedOf_nil]
            simp [monthPub, monthContinues, hm, hex, hr, hv]
        · rw [if_neg hr, publishedOf_cons_setShutdown, publishedOf_nil]
          simp [monthPub, monthContinues, hm, hex, hr]
      · rw [worker_eq_existing_valid env processed month rest hm hex,
          publishedOf_cons_publish]
        simp [monthPub, monthContinues, hm, hex]

theorem published_unchanged_by_removing_completed (env : Env)
    (processed : String → Bool) (U : String) (hU : processed U = true) :
    ∀ months : List String,
      publishedOf (download_worker env processed months) =
        publishedOf (download_worker env processed
          (months.filter fun m => m ≠ U)) := by
  intro months
  induction months with
  | nil => rfl
  | cons month rest ih =>
    by_cases hmU : month = U
    · have hpm : processed month = true := by rw [hmU]; exact hU
      have hfil : (month :: rest).filter (fun m => m ≠ U) =
          rest.filter fun m => m ≠ U := by
        simp [List.filter_cons, hmU]
      rw [hfil, published_cons, ← ih]
      simp [monthPub, monthContinues, hpm]
    · have hfil : (month :: rest).filter (fun m => m ≠ U) =
          month :: rest.filter fun m => m ≠ U := by
        simp [List.filter_cons, hmU]
      rw [hfil, published_cons, published_cons, ih]

/-- C2: a unit already in the completed set is filtered out of the
orchestrator's work list, is never downloaded nor published by the
download worker, and the published unit sequence — hence any statistics
computed by folding the per-unit contributions over it — is the same as
in a run whose work list never contains that unit. -/
theorem completed_unit_never_reprocessed (months : List String)
    (processed : String → Bool) (env : Env) (U : String)
    (hU : processed U = true) :
    U ∉ remainingMonths months processed ∧
    Ev.downloadStart U ∉ download_worker env processed months ∧
    Ev.publish U ∉ download_worker env processed months ∧
    publishedOf (download_worker env processed months) =
      publishedOf (download_worker env processed
        (months.filter fun m => m ≠ U)) ∧
    ∀ (f : StatsMap → String → StatsMap) (s0 : StatsMap),
      (publishedOf (download_worker env processed months)).foldl f s0 =
        (publishedOf (download_worker env processed
          (months.filter fun m => m ≠ U))).foldl f s0 := by
  refine ⟨?_, (download_worker_no_completed env processed U hU months).1,
    (download_worker_no_completed env processed U hU months).2,
    published_unchanged_by_removing_completed env processed U hU months,
    fun f s0 => by
      rw [published_unchanged_by_removing_completed env processed U hU months]⟩
  simp [remainingMonths, hU]

/-- Closed instance of C2: with `"2021-07"` checkpointed as completed, a
work list containing it yields the same published sequence as one without
it, and the unit is neither downloaded nor published. -/
theorem completed_unit_never_reprocessed_witness :
    (fun m => m == "2021-07") "2021-07" = true ∧
    "2021-07" ∉ remainingMonths ["2021-07", "2021-08"]
      (fun m => m == "2021-07") ∧
    Ev.downloadStart "2021-07" ∉ download_worker
      { existing := fun _ => some true, attempt := fun _ _ => AttemptResult.ok,
        validFinal := fun _ => true }
      (fun m => m == "2021-07") ["2021-07", "2021-08"] ∧
    Ev.publish "2021-07" ∉ download_worker
      { existing := fun _ => some true, attempt := fun _ _ => AttemptResult.ok,
        validFinal := fun _ => true }
      (fun m => m == "2021-07") ["2021-07", "2021-08"] ∧
    publishedOf (download_worker
      { existing := fun _ => some true, attempt := fun _ _ => AttemptResult.ok,
        validFinal := fun _ => true }
      (fun m => m == "2021-07") ["2021-07", "2021-08"]) =
      publishedOf (download_worker
        { existing := fun _ => some true, attempt := fun _ _ => AttemptResult.ok,
          validFinal := fun _ => true }
        (fun m => m == "2021-07")
        (["2021-07", "2021-08"].filter fun m => m ≠ "2021-07")) := by
  have h := completed_unit_never_reprocessed ["2021-07", "2021-08"]
    (fun m => m == "2021-07")
    { existing := fun _ => some true, attempt := fun _ _ => AttemptResult.ok,
      validFinal := fun _ => true }
    "2021-07" rfl
  exact ⟨rfl, h.1, h.2.1, h.2.2.1, h.2.2.2.1⟩

theorem countAttempts_cons_att (month : String) (k : ℕ) (l : List Ev) :
    countAttempts (Ev.attempt month k :: l) = countAttempts l + 1 := by
  simp [countAttempts, List.countP_cons]

theorem countAttempts_cons_sleep (l : List Ev) :
    countAttempts (Ev.sleep30 :: l) = countAttempts l := by
  simp [countAttempts, List.countP_cons]

theorem countSleeps_cons_att (month : String) (k : ℕ) (l : List Ev) :
    countSleeps (Ev.attempt month k :: l) = countSleeps l := by
  simp [countSleeps, List.countP_cons]

theorem countSleeps_cons_sleep (l : List Ev) :
    countSleeps (Ev.sleep30 :: l) = countSleeps l + 1 := by
  simp [countSleeps, List.countP_cons]

theorem retryGo_ok (env : Env) (month : String) (k rem : ℕ)
    (h : env.attempt month k = AttemptResult.ok) :
    retryGo env month k (rem + 1) = (true, [Ev.attempt month k]) := by
  rw [retryGo, h]

theorem retryGo_invalid (env : Env) (month : String) (k rem : ℕ)
    (h : env.attempt month k = AttemptResult.invalidFile) :
    retryGo env month k (rem + 1) =
      ((retryGo env month (k + 1) rem).1,
        Ev.attempt month k :: (retryGo env month (k + 1) rem).2) := by
  rw [retryGo, h]

theorem retryGo_moveFail (env : Env) (month : String) (k rem : ℕ)
    (h : env.attempt month k = AttemptResult.moveFail) :
    retryGo env month k (rem + 1) =
      ((retryGo env month (k + 1) rem).1,
        Ev.attempt month k :: (retryGo env month (k + 1) rem).2) := by
  rw [retryGo, h]

theorem retryGo_exc_last (env : Env) (month : String) (k : ℕ)
    (h : env.attempt month k = AttemptResult.exc) :
    retryGo env month k 1 = (false, [Ev.attempt month k]) := by
  rw [retryGo, h]
  rfl

theorem retryGo_exc (env : Env) (month : String) (k rem : ℕ)
    (h : env.attempt month k = AttemptResult.exc) (hrem : rem ≠ 0) :
    retryGo env month k (rem + 1) =
      ((retryGo env month (k + 1) rem).1,
        Ev.attempt month k :: Ev.sleep30 :: (retryGo env month (k + 1) rem).2) := by
  rw [retryGo, h, if_neg hrem]

theorem retryGo_attempts_le (env : Env) (month : String) :
    ∀ rem k, countAttempts (retryGo env month k rem).2 ≤ rem := by
  intro rem
  induction rem with
  | zero => intro k; simp [retryGo, countAttempts]
  | succ rem ih =>
    intro k
    rcases hA : env.attempt month k with _ | _ | _ | _
    · rw [retryGo_ok env month k rem hA]
      simp [countAttempts, List.countP_cons]
    · rw [retryGo_invalid env month k rem hA, countAttempts_cons_att]
      have := ih (k + 1)
      omega
    · rw [retryGo_moveFail env month k rem hA, countAttempts_cons_att]
      have := ih (k + 1)
      omega
    · by_cases hrem : rem = 0
      · subst hrem
        rw [retryGo_exc_last env month k hA]
        simp [countAttempts, List.countP_cons]
      · rw [retryGo_exc env month k rem hA hrem, countAttempts_cons_att,
          countAttempts_cons_sleep]
        have := ih (k + 1)
        omega

theorem retryGo_fail_attempts (env : Env) (month : String) :
    ∀ rem k, (retryGo env month k rem).1 = false →
      countAttempts (retryGo env month k rem).2 = rem := by
  intro rem
  induction rem with
  | zero => intro k _; simp [retryGo, countAttempts]
  | succ rem ih =>
    intro k hfail
    rcases hA : env.attempt month k with _ | _ | _ | _
    · rw [retryGo_ok env month k rem hA] at hfail
      simp at hfail
    · rw [retryGo_invalid env month k rem hA] at hfail ⊢
      rw [countAttempts_cons_att, ih (k + 1) hfail]
    · rw [retryGo_moveFail env month k rem hA] at hfail ⊢
      rw [countAttempts_cons_att, ih (k + 1) hfail]
    · by_cases hrem : rem = 0
      · subst hrem
        rw [retryGo_exc_last env month k hA]
        simp [countAttempts, List.countP_cons]
      · rw [retryGo_exc env month k rem hA hrem] at hfail ⊢
        rw [countAttempts_cons_att, countAttempts_cons_sleep, ih (k + 1) hfail]

theorem retryGo_attempts_pos (env : Env) (month : String) (rem k : ℕ)
    (h : 1 ≤ rem) : 1 ≤ countAttempts (retryGo env month k rem).2 := by
  rcases rem with _ | rem
  · omega
  · rcases hA : env.attempt month k with _ | _ | _ | _
    · rw [retryGo_ok env month k rem hA]
      simp [countAttempts, List.countP_cons]
    · rw [retryGo_invalid env month k rem hA, countAttempts_cons_att]
      omega
    · rw [retryGo_moveFail env month k rem hA, countAttempts_cons_att]
      omega
    · by_cases hrem : rem = 0
      · subst hrem
        rw [retryGo_exc_last env month k hA]
        simp [countAttempts, List.countP_cons]
      · rw [retryGo_exc env month k rem hA hrem, countAttempts_cons_att,
          countAttempts_cons_sleep]
        omega

theorem countP_range_succ_shift (f : ℕ → Bool) (n : ℕ) :
    (List.range (n + 1)).countP f =
      (if f 0 then 1 else 0) + (List.range n).countP fun j => f (j + 1) := by
  rw [List.range_succ_eq_map, List.countP_cons, List.countP_map]
  have harg : (f ∘ Nat.succ) = fun j => f (j + 1) := rfl
  rw [harg]
  by_cases h0 : f 0 = true
  · simp [h0]; omega
  · simp [h0]

theorem retryGo_sleeps (env : Env) (month : String) :
    ∀ rem k, countSleeps (retryGo env month k rem).2 =
      (List.range (countAttempts (retryGo env month k rem).2 - 1)).countP
        fun j => decide (env.attempt month (k + j) = AttemptResult.exc) := by
  intro rem
  induction rem with
  | zero => intro k; simp [retryGo, countAttempts, countSleeps]
  | succ rem ih =>
    intro k
    have hshift : ∀ A : ℕ, 1 ≤ A →
        (List.range (A + 1 - 1)).countP
          (fun j => decide (env.attempt month (k + j) = AttemptResult.exc)) =
        (if decide (env.attempt month (k + 0) = AttemptResult.exc) then 1 else 0) +
          (List.range (A - 1)).countP
            (fun j => decide (env.attempt month (k + 1 + j) = AttemptResult.exc)) := by
      intro A hApos
      have hsplit : A + 1 - 1 = (A - 1) + 1 := by omega
      rw [hsplit, countP_range_succ_shift]
      have harg : (fun j => decide (env.attempt month (k + (j + 1)) =
          AttemptResult.exc)) =
          fun j => decide (env.attempt month (k + 1 + j) = AttemptResult.exc) := by
        funext j
        have hj : k + (j + 1) = k + 1 + j := by omega
        rw [hj]
      rw [harg]
    rcases hA : env.attempt month k with _ | _ | _ | _
    · rw [retryGo_ok env month k rem hA]
      simp [countAttempts, countSleeps, List.countP_cons]
    · rw [retryGo_invalid env month k rem hA, countAttempts_cons_att,
        countSleeps_cons_att, ih (k + 1)]
      rcases Nat.eq_zero_or_pos (countAttempts (retryGo env month (k + 1) rem).2)
        with hA0 | hApos
      · simp [hA0]
      · rw [hshift _ hApos]
        simp [hA]
    · rw [retryGo_moveFail env month k rem hA, countAttempts_cons_att,
        countSleeps_cons_att, ih (k + 1)]
      rcases Nat.eq_zero_or_pos (countAttempts (retryGo env month (k + 1) rem).2)
        with hA0 | hApos
      · simp [hA0]
      · rw [hshift _ hApos]
        simp [hA]
    · by_cases hrem : rem = 0
      · subst hrem
        rw [retryGo_exc_last env month k hA]
        simp [countAttempts, countSleeps, List.countP_cons]
      · rw [retryGo_exc env month k rem hA hrem, countAttempts_cons_att,
          countAttempts_cons_sleep, countSleeps_cons_att, countSleeps_cons_sleep,
          ih (k + 1)]
        have hApos : 1 ≤ countAttempts (retryGo env month (k + 1) rem).2 :=
          retryGo_attempts_pos env month rem (k + 1) (by omega)
        rw [hshift _ hApos]
        simp [hA]
        omega

theorem worker_fail_trace (env : Env) (processed : String → Bool)
    (month : String) (rest : List String) (hm : ¬ processed month = true)
    (hex : env.existing month = none ∨ env.existing month = some false)
    (hfail : (download_file_with_retry env month).1 = false) :
    download_worker env processed (month :: rest) =
      (if env.existing month = some false then [Ev.removeInvalid month]
       else []) ++
        Ev.downloadStart month :: (download_file_with_retry env month).2 ++
          [Ev.setShutdown] := by
  rcases hex with hex | hex
  · rw [worker_eq_download env processed month rest hm hex, hfail, hex]
    simp
  · rw [worker_eq_existing_invalid env processed month rest hm hex, hfail, hex]
    simp

/-- Counterexample to C8 as stated: an environment whose three download
attempts all fail validation retries immediately — the trace has three
consecutive attempts and no 30-second wait at all. -/
theorem retry_backoff_counterexample :
    countAttempts (download_file_with_retry
      { existing := fun _ => none,
        attempt := fun _ _ => AttemptResult.invalidFile,
        validFinal := fun _ => true } "2021-07").2 = 3 ∧
    countSleeps (download_file_with_retry
      { existing := fun _ => none,
        attempt := fun _ _ => AttemptResult.invalidFile,
        validFinal := fun _ => true } "2021-07").2 = 0 ∧
    waitsBetweenAttempts false (download_file_with_retry
      { existing := fun _ => none,
        attempt := fun _ _ => AttemptResult.invalidFile,
        validFinal := fun _ => true } "2021-07").2 = false ∧
    (download_file_with_retry
      { existing := fun _ => none,
        attempt := fun _ _ => AttemptResult.invalidFile,
        validFinal := fun _ => true } "2021-07").1 = false := by
  decide

/-- C8 amended: at most 3 attempts per unit (exactly 3 whenever the
download fails for good); the 30-second wait occurs exactly after each
non-final attempt that failed with a transfer exception — attempts failing
validation or the temp-to-final move retry immediately; and once all
attempts fail the worker sets the shutdown signal and stops, producing no
download or publish event for any later unit. -/
theorem download_retry_policy (env : Env) (month : String) :
    countAttempts (download_file_with_retry env month).2 ≤ 3 ∧
    ((download_file_with_retry env month).1 = false →
      countAttempts (download_file_with_retry env month).2 = 3) ∧
    countSleeps (download_file_with_retry env month).2 =
      ((List.range (countAttempts (download_file_with_retry env month).2 - 1)).countP
        fun j => decide (env.attempt month j = AttemptResult.exc)) ∧
    ∀ (processed : String → Bool) (rest : List String),
      processed month = false →
      (env.existing month = none ∨ env.existing month = some false) →
      (download_file_with_retry env month).1 = false →
      (download_worker env processed (month :: rest) =
        (if env.existing month = some false then [Ev.removeInvalid month]
         else []) ++
          Ev.downloadStart month :: (download_file_with_retry env month).2 ++
            [Ev.setShutdown]) ∧
      Ev.setShutdown ∈ download_worker env processed (month :: rest) ∧
      (∀ m, Ev.publish m ∉ download_worker env processed (month :: rest)) ∧
      (∀ m, m ≠ month →
        Ev.downloadStart m ∉ download_worker env processed (month :: rest)) := by
  refine ⟨retryGo_attempts_le env month 3 0, retryGo_fail_attempts env month 3 0,
    ?_, ?_⟩
  · have h := retryGo_sleeps env month 3 0
    have harg : (fun j => decide (env.attempt month (0 + j) = AttemptResult.exc)) =
        fun j => decide (env.attempt month j = AttemptResult.exc) := by
      funext j
      rw [Nat.zero_add]
    rw [download_file_with_retry, h, harg]
  · intro processed rest hm hex hfail
    have htrace := worker_fail_trace env processed month rest
      (by rw [hm]; exact Bool.false_ne_true) hex hfail
    refine ⟨htrace, ?_, ?_, ?_⟩
    · rw [htrace]
      simp
    · intro m hmem
      rw [htrace] at hmem
      rcases List.mem_append.1 hmem with h | h
      · rcases List.mem_append.1 h with h | h
        · split at h <;> simp at h
        · rcases List.mem_cons.1 h with h | h
          · simp at h
          · exact retry_trace_no_publish env month m h
      · simp at h
    · intro m hne hmem
      rw [htrace] at hmem
      rcases List.mem_append.1 hmem with h | h
      · rcases List.mem_append.1 h with h | h
        · split at h <;> simp at h
        · rcases List.mem_cons.1 h with h | h
          · exact hne (by simpa using h)
          · exact retry_trace_no_downloadStart env month m h
      · simp at h

/-- Closed instance of the amended C8: with every attempt raising a
transfer error, the worker makes 3 attempts, then sets shutdown and emits
no download or publish event for the following unit. -/
theorem download_retry_policy_witness :
    (download_file_with_retry
      { existing := fun _ => none, attempt := fun _ _ => AttemptResult.exc,
        validFinal := fun _ => true } "2021-07").1 = false ∧
    countAttempts (download_file_with_retry
      { existing := fun _ => none, attempt := fun _ _ => AttemptResult.exc,
        validFinal := fun _ => true } "2021-07").2 ≤ 3 ∧
    Ev.setShutdown ∈ download_worker
      { existing := fun _ => none, attempt := fun _ _ => AttemptResult.exc,
        validFinal := fun _ => true } (fun _ => false)
      ["2021-07", "2021-08"] ∧
    Ev.publish "2021-08" ∉ download_worker
      { existing := fun _ => none, attempt := fun _ _ => AttemptResult.exc,
        validFinal := fun _ => true } (fun _ => false)
      ["2021-07", "2021-08"] ∧
    Ev.downloadStart "2021-08" ∉ download_worker
      { existing := fun _ => none, attempt := fun _ _ => AttemptResult.exc,
        validFinal := fun _ => true } (fun _ => false)
      ["2021-07", "2021-08"] := by
  have h := download_retry_policy
    { existing := fun _ => none, attempt := fun _ _ => AttemptResult.exc,
      validFinal := fun _ => true } "2021-07"
  have h4 := h.2.2.2 (fun _ => false) ["2021-08"] rfl (Or.inl rfl) (by decide)
  exact ⟨by decide, h.1, h4.2.1, h4.2.2.1 "2021-08",
    h4.2.2.2 "2021-08" (by decide)⟩

/-- C4: `save_checkpoint` does not use the temp-file-then-atomic-replace
pattern the specification requires — it opens the final checkpoint path
directly in write mode (truncating the previous checkpoint) and dumps the
JSON into it, and performs no rename at all.  A crash between the
truncating open and the completed dump therefore leaves a partial file at
the checkpoint path. -/
theorem save_checkpoint_not_atomic :
    tempThenAtomicReplace save_checkpoint_ops checkpointPath = false ∧
    FileOp.openTruncWrite checkpointPath ∈ save_checkpoint_ops ∧
    FileOp.jsonDump checkpointPath ∈ save_checkpoint_ops ∧
    ∀ src dst, FileOp.renameFile src dst ∉ save_checkpoint_ops := by
  refine ⟨by decide, by decide, by decide, ?_⟩
  intro src dst hmem
  simp [save_checkpoint_ops] at hmem

/-- Counterexample to C9 as stated: for a key with `games_analyzed = 0`
the three rate fields are *present* in the final record, bound to JSON
`null` — they are not absent. -/
theorem rate_fields_present_as_null :
    PopularityStats.init.games_analyzed = 0 ∧
    (final_stats_record PopularityStats.init "2025-07-14").lookup
      "white_win_rate" = some JVal.null ∧
    (final_stats_record PopularityStats.init "2025-07-14").lookup
      "black_win_rate" = some JVal.null ∧
    (final_stats_record PopularityStats.init "2025-07-14").lookup
      "draw_rate" = some JVal.null ∧
    ¬ (final_stats_record PopularityStats.init "2025-07-14").lookup
      "white_win_rate" = none := by
  decide

/-- C9 amended: every final record carries the three rate keys; for a key
with positive `games_analyzed` they hold `bucket / games_analyzed`, and
for a zero-count key they hold JSON `null` (rather than being absent). -/
theorem rate_fields_values (st : PopularityStats) (date : String) :
    (0 < st.games_analyzed →
      (final_stats_record st date).lookup "white_win_rate" =
        some (JVal.num ((st.white_wins : ℚ) / (st.games_analyzed : ℚ))) ∧
      (final_stats_record st date).lookup "black_win_rate" =
        some (JVal.num ((st.black_wins : ℚ) / (st.games_analyzed : ℚ))) ∧
      (final_stats_record st date).lookup "draw_rate" =
        some (JVal.num ((st.draws : ℚ) / (st.games_analyzed : ℚ)))) ∧
    (st.games_analyzed = 0 →
      (final_stats_record st date).lookup "white_win_rate" = some JVal.null ∧
      (final_stats_record st date).lookup "black_win_rate" = some JVal.null ∧
      (final_stats_record st date).lookup "draw_rate" = some JVal.null) := by
  constructor
  · intro hpos
    rw [final_stats_record, if_pos hpos]
    exact ⟨rfl, rfl, rfl⟩
  · intro hzero
    rw [final_stats_record, if_neg (by omega)]
    exact ⟨rfl, rfl, rfl⟩

/-- Closed instance of the amended C9 at a record with 2 games, 1 white
win and 1 draw. -/
theorem rate_fields_values_witness :
    0 < ({ games_analyzed := 2, white_wins := 1, draws := 1 } :
      PopularityStats).games_analyzed ∧
    (final_stats_record
        { games_analyzed := 2, white_wins := 1, draws := 1 }
        "2025-07-14").lookup "white_win_rate" =
      some (JVal.num
        ((({ games_analyzed := 2, white_wins := 1, draws := 1 } :
            PopularityStats).white_wins : ℚ) /
          (({ games_analyzed := 2, white_wins := 1, draws := 1 } :
            PopularityStats).games_analyzed : ℚ))) := by
  refine ⟨by decide, ?_⟩
  exact ((rate_fields_values
    { games_analyzed := 2, white_wins := 1, draws := 1 } "2025-07-14").1
    (by decide)).1

/-! ## Correctness of the binary64 rounding model -/

theorem lg2_correct : ∀ (f n : ℕ), 1 ≤ n → n ≤ f →
    2 ^ lg2 f n ≤ n ∧ n < 2 ^ (lg2 f n + 1) := by
  intro f
  induction f with
  | zero => intro n h1 h2; omega
  | succ f ih =>
    intro n h1 h2
    by_cases hn : n ≤ 1
    · have hn1 : n = 1 := by omega
      subst hn1
      rw [lg2, if_pos (by omega)]
      norm_num
    · rw [lg2, if_neg hn]
      obtain ⟨hl, hr⟩ := ih (n / 2) (by omega) (by omega)
      rw [pow_succ] at hr
      constructor
      · rw [pow_succ]
        omega
      · rw [pow_succ, pow_succ]
        omega

theorem bitlen_correct (n : ℕ) (h : 1 ≤ n) :
    2 ^ (bitlen n - 1) ≤ n ∧ n < 2 ^ bitlen n := by
  rw [bitlen, if_neg (by omega)]
  have hc := lg2_correct n n h le_rfl
  rw [natLog2] at *
  constructor
  · simpa using hc.1
  · simpa using hc.2

theorem bitlen_pos (n : ℕ) (h : 1 ≤ n) : 1 ≤ bitlen n := by
  rw [bitlen, if_neg (by omega)]
  omega

theorem rndE_correct (a b : ℕ) (ha : 0 < a) (hb : 0 < b) (hba : b ≤ 16 * a) :
    (2 : ℚ) ^ rndE a b ≤ (a : ℚ) / (b : ℚ) ∧
    (a : ℚ) / (b : ℚ) < 2 ^ (rndE a b + 1) ∧ -4 ≤ rndE a b := by
  have hbq : (0 : ℚ) < (b : ℚ) := by exact_mod_cast hb
  have hc1 : 1 ≤ 16 * a / b := (Nat.one_le_div_iff hb).mpr hba
  have hbl := bitlen_correct (16 * a / b) hc1
  have hL1 : 1 ≤ bitlen (16 * a / b) := bitlen_pos _ hc1
  set L := bitlen (16 * a / b) with hLdef
  set c := 16 * a / b with hcdef
  have hmod : 16 * a % b < b := Nat.mod_lt _ hb
  have hdm := Nat.div_add_mod (16 * a) b
  -- c * b ≤ 16 a < (c+1) * b  (integer division)
  have hcb : c * b ≤ 16 * a := Nat.div_mul_le_self (16 * a) b
  have hcb2 : 16 * a < (c + 1) * b := by
    have : b * c + 16 * a % b = 16 * a := hdm
    nlinarith [hmod]
  -- 2^(L-1) ≤ c and c < 2^L
  obtain ⟨hcl, hcu⟩ := hbl
  -- the natural-subtraction exponents, as equalities on ℤ
  have hLsub : ((L - 1 : ℕ) : ℤ) = (L : ℤ) - 1 := by omega
  rw [rndE, ← hLdef]
  by_cases htest : b * 2 ^ L ≤ 16 * a
  · rw [if_pos htest]
    refine ⟨?_, ?_, by omega⟩
    · -- 2^(L-4) ≤ a / b, from b * 2^L ≤ 16 a
      rw [le_div_iff₀ hbq]
      have h1 : ((b : ℚ)) * 2 ^ L ≤ 16 * a := by exact_mod_cast htest
      have h2 : (2 : ℚ) ^ ((L : ℤ) - 4) = 2 ^ (L : ℤ) / 16 := by
        rw [zpow_sub₀ (by norm_num : (2 : ℚ) ≠ 0)]
        norm_num
      rw [h2, zpow_natCast]
      rw [div_mul_eq_mul_div, div_le_iff₀ (by norm_num : (0:ℚ) < 16)]
      linarith
    · -- a / b < 2^(L-3), from 16 a < (c+1) * b and c < 2^L
      rw [div_lt_iff₀ hbq]
      have h2 : (2 : ℚ) ^ ((L : ℤ) - 4 + 1) = 2 ^ (L : ℤ) * 2 / 16 := by
        rw [show (L : ℤ) - 4 + 1 = ((L : ℤ) + 1) - 4 by ring,
          zpow_sub₀ (by norm_num : (2 : ℚ) ≠ 0),
          zpow_add₀ (by norm_num : (2 : ℚ) ≠ 0)]
        norm_num
      rw [h2, zpow_natCast]
      have hcq : ((c : ℚ) + 1) ≤ 2 ^ L := by exact_mod_cast hcu
      have hle : (16 : ℚ) * a < ((c : ℚ) + 1) * b := by exact_mod_cast hcb2
      have hb2 : ((c : ℚ) + 1) * b ≤ (2 ^ L : ℚ) * b := by
        apply mul_le_mul_of_nonneg_right hcq (le_of_lt hbq)
      rw [div_mul_eq_mul_div, lt_div_iff₀ (by norm_num : (0:ℚ) < 16)]
      calc (a : ℚ) * 16 = 16 * a := by ring
        _ < ((c : ℚ) + 1) * b := hle
        _ ≤ (2 ^ L : ℚ) * b := hb2
        _ ≤ (2 ^ L : ℚ) * 2 * b := by nlinarith [pow_pos (by norm_num : (0:ℚ) < 2) L]
  · rw [if_neg htest]
    push_neg at htest
    refine ⟨?_, ?_, by omega⟩
    · -- 2^(L-5) ≤ a / b, from 2^(L-1) ≤ c ≤ 16 a / b
      rw [le_div_iff₀ hbq]
      have hclq : (2 : ℚ) ^ (L - 1 : ℕ) ≤ (c : ℚ) := by exact_mod_cast hcl
      have hcbq : (c : ℚ) * b ≤ 16 * a := by exact_mod_cast hcb
      have h2 : (2 : ℚ) ^ ((L : ℤ) - 5) = 2 ^ ((L : ℤ) - 1) / 16 := by
        rw [show (L : ℤ) - 5 = ((L : ℤ) - 1) - 4 by ring,
          zpow_sub₀ (by norm_num : (2 : ℚ) ≠ 0)]
        norm_num
      have h3 : (2 : ℚ) ^ ((L : ℤ) - 1) = 2 ^ (L - 1 : ℕ) := by
        rw [← hLsub, zpow_natCast]
      rw [h2, h3, div_mul_eq_mul_div, div_le_iff₀ (by norm_num : (0:ℚ) < 16)]
      have : (2 : ℚ) ^ (L - 1 : ℕ) * b ≤ (c : ℚ) * b :=
        mul_le_mul_of_nonneg_right hclq (le_of_lt hbq)
      linarith
    · -- a / b < 2^(L-4), from 16 a < b * 2^L
      rw [div_lt_iff₀ hbq]
      have h1 : (16 : ℚ) * a < (b : ℚ) * 2 ^ L := by exact_mod_cast htest
      have h2 : (2 : ℚ) ^ ((L : ℤ) - 5 + 1) = 2 ^ (L : ℤ) / 16 := by
        rw [show (L : ℤ) - 5 + 1 = (L : ℤ) - 4 by ring,
          zpow_sub₀ (by norm_num : (2 : ℚ) ≠ 0)]
        norm_num
      rw [h2, zpow_natCast, div_mul_eq_mul_div, lt_div_iff₀ (by norm_num : (0:ℚ) < 16)]
      linarith

theorem rndDen_pos (a b : ℕ) (hb : 0 < b) : 0 < rndDen a b :=
  Nat.mul_pos hb (pow_pos (by norm_num) _)

theorem zpow_toNat_eq (k : ℤ) (hk : 0 ≤ k) : (2 : ℚ) ^ k.toNat = 2 ^ k := by
  rw [← zpow_natCast]
  congr 1
  omega

theorem rndScale (a b : ℕ) (hb : 0 < b) :
    ((rndNum a b : ℚ)) / ((rndDen a b : ℚ)) =
      ((a : ℚ) / (b : ℚ)) * 2 ^ ((52 : ℤ) - rndE a b) := by
  have hbq : (b : ℚ) ≠ 0 := by
    have : (0 : ℚ) < (b : ℚ) := by exact_mod_cast hb
    exact ne_of_gt this
  by_cases he : rndE a b ≤ 52
  · have h2 : (rndE a b - 52).toNat = 0 := by omega
    rw [rndNum, rndDen, h2, pow_zero, mul_one]
    push_cast
    rw [zpow_toNat_eq (52 - rndE a b) (by omega)]
    ring
  · have h1 : (52 - rndE a b).toNat = 0 := by omega
    rw [rndNum, rndDen, h1, pow_zero, mul_one]
    push_cast
    have hneg : (2 : ℚ) ^ ((52 : ℤ) - rndE a b) =
        ((2 : ℚ) ^ (rndE a b - 52).toNat)⁻¹ := by
      rw [zpow_toNat_eq (rndE a b - 52) (by omega), ← zpow_neg]
      congr 1
      ring
    rw [hneg]
    have h2pow : ((2 : ℚ) ^ (rndE a b - 52).toNat) ≠ 0 := by positivity
    field_simp

theorem rndNum_bounds (a b : ℕ) (ha : 0 < a) (hb : 0 < b) (hba : b ≤ 16 * a) :
    2 ^ 52 * rndDen a b ≤ rndNum a b ∧ rndNum a b < 2 ^ 53 * rndDen a b := by
  obtain ⟨hlo, hhi, h4⟩ := rndE_correct a b ha hb hba
  have hdq : (0 : ℚ) < (rndDen a b : ℚ) := by exact_mod_cast rndDen_pos a b hb
  have hscale := rndScale a b hb
  have hz : (0 : ℚ) < 2 ^ ((52 : ℤ) - rndE a b) := by positivity
  constructor
  · have hq : (2 : ℚ) ^ (52 : ℕ) ≤ (rndNum a b : ℚ) / (rndDen a b : ℚ) := by
      rw [hscale]
      calc (2 : ℚ) ^ (52 : ℕ) = 2 ^ (rndE a b) * 2 ^ ((52 : ℤ) - rndE a b) := by
            rw [← zpow_add₀ (by norm_num : (2 : ℚ) ≠ 0), ← zpow_natCast]
            congr 1
            ring
        _ ≤ ((a : ℚ) / (b : ℚ)) * 2 ^ ((52 : ℤ) - rndE a b) :=
            mul_le_mul_of_nonneg_right hlo (le_of_lt hz)
    rw [le_div_iff₀ hdq] at hq
    exact_mod_cast hq
  · have hq : (rndNum a b : ℚ) / (rndDen a b : ℚ) < (2 : ℚ) ^ (53 : ℕ) := by
      rw [hscale]
      calc ((a : ℚ) / (b : ℚ)) * 2 ^ ((52 : ℤ) - rndE a b)
          < 2 ^ (rndE a b + 1) * 2 ^ ((52 : ℤ) - rndE a b) :=
            mul_lt_mul_of_pos_right hhi hz
        _ = (2 : ℚ) ^ (53 : ℕ) := by
            rw [← zpow_add₀ (by norm_num : (2 : ℚ) ≠ 0), ← zpow_natCast]
            congr 1
            ring
    rw [div_lt_iff₀ hdq] at hq
    have : (rndNum a b : ℚ) < (2 ^ 53 * rndDen a b : ℕ) := by
      push_cast
      linarith
    exact_mod_cast this

theorem rndMant_cases (a b : ℕ) :
    rndMant a b = rndNum a b / rndDen a b ∨
    rndMant a b = rndNum a b / rndDen a b + 1 := by
  rw [rndMant]
  split_ifs <;> simp

theorem rndMant_bounds (a b : ℕ) (ha : 0 < a) (hb : 0 < b)
    (hba : b ≤ 16 * a) :
    2 ^ 52 ≤ rndMant a b ∧ rndMant a b ≤ 2 ^ 53 := by
  obtain ⟨hlo, hhi⟩ := rndNum_bounds a b ha hb hba
  have hd := rndDen_pos a b hb
  have hm0lo : 2 ^ 52 ≤ rndNum a b / rndDen a b :=
    (Nat.le_div_iff_mul_le hd).mpr (by linarith [hlo])
  have hm0hi : rndNum a b / rndDen a b < 2 ^ 53 :=
    (Nat.div_lt_iff_lt_mul hd).mpr (by linarith [hhi])
  rcases rndMant_cases a b with h | h <;> rw [h] <;> omega

theorem rndQ56_val (a b : ℕ) (h4 : -4 ≤ rndE a b) :
    (rndQ56 a b : ℚ) = (rndMant a b : ℚ) * 2 ^ (rndE a b + 4) := by
  rw [rndQ56]
  push_cast
  congr 1
  exact zpow_toNat_eq (rndE a b + 4) (by omega)

theorem two_zpow_eq_natCast (k : ℕ) : (2 : ℚ) ^ (k : ℤ) = ((2 ^ k : ℕ) : ℚ) := by
  push_cast
  rw [zpow_natCast]

theorem rndQ56_val_bounds (a b : ℕ) (ha : 0 < a) (hb : 0 < b)
    (hba : b ≤ 16 * a) :
    (2 : ℚ) ^ (rndE a b + 56) ≤ (rndQ56 a b : ℚ) ∧
    (rndQ56 a b : ℚ) ≤ 2 ^ (rndE a b + 57) := by
  obtain ⟨hmlo, hmhi⟩ := rndMant_bounds a b ha hb hba
  have h4 := (rndE_correct a b ha hb hba).2.2
  rw [rndQ56_val a b h4]
  have hz : (0 : ℚ) < 2 ^ (rndE a b + 4) := by positivity
  constructor
  · have hsplit : (2 : ℚ) ^ (rndE a b + 56) =
        ((2 ^ 52 : ℕ) : ℚ) * 2 ^ (rndE a b + 4) := by
      rw [← two_zpow_eq_natCast 52, ← zpow_add₀ (by norm_num : (2 : ℚ) ≠ 0)]
      congr 1
      push_cast
      ring
    rw [hsplit]
    exact mul_le_mul_of_nonneg_right (by exact_mod_cast hmlo) (le_of_lt hz)
  · have hsplit : (2 : ℚ) ^ (rndE a b + 57) =
        ((2 ^ 53 : ℕ) : ℚ) * 2 ^ (rndE a b + 4) := by
      rw [← two_zpow_eq_natCast 53, ← zpow_add₀ (by norm_num : (2 : ℚ) ≠ 0)]
      congr 1
      push_cast
      ring
    rw [hsplit]
    exact mul_le_mul_of_nonneg_right (by exact_mod_cast hmhi) (le_of_lt hz)

theorem rndQ56_err (a b : ℕ) (ha : 0 < a) (hb : 0 < b) (hba : b ≤ 16 * a) :
    (rndQ56 a b : ℚ) ≤ ((a : ℚ) / (b : ℚ)) * 2 ^ 56 + 2 ^ (rndE a b + 4) := by
  have h4 := (rndE_correct a b ha hb hba).2.2
  have hdq : (0 : ℚ) < (rndDen a b : ℚ) := by exact_mod_cast rndDen_pos a b hb
  have hz : (0 : ℚ) < 2 ^ (rndE a b + 4) := by positivity
  have hm0 : ((rndNum a b / rndDen a b : ℕ) : ℚ) ≤
      (rndNum a b : ℚ) / (rndDen a b : ℚ) := Nat.cast_div_le
  have hmant : (rndMant a b : ℚ) ≤
      (rndNum a b : ℚ) / (rndDen a b : ℚ) + 1 := by
    rcases rndMant_cases a b with h | h <;> rw [h] <;> push_cast <;>
      linarith [hm0]
  have hs : (rndNum a b : ℚ) / (rndDen a b : ℚ) * 2 ^ (rndE a b + 4) =
      ((a : ℚ) / (b : ℚ)) * 2 ^ 56 := by
    rw [rndScale a b hb, mul_assoc, ← zpow_add₀ (by norm_num : (2 : ℚ) ≠ 0)]
    have harith : (52 : ℤ) - rndE a b + (rndE a b + 4) = 56 := by ring
    rw [harith]
    norm_num
  rw [rndQ56_val a b h4]
  calc (rndMant a b : ℚ) * 2 ^ (rndE a b + 4)
      ≤ ((rndNum a b : ℚ) / (rndDen a b : ℚ) + 1) * 2 ^ (rndE a b + 4) :=
        mul_le_mul_of_nonneg_right hmant (le_of_lt hz)
    _ = ((a : ℚ) / (b : ℚ)) * 2 ^ 56 + 2 ^ (rndE a b + 4) := by
        rw [add_mul, one_mul, hs]

theorem rndMant_eq_low (a b : ℕ)
    (h : 2 * (rndNum a b % rndDen a b) < rndDen a b) :
    rndMant a b = rndNum a b / rndDen a b := by
  dsimp only [rndMant]
  rw [if_pos h]

theorem rndMant_eq_high (a b : ℕ)
    (h : rndDen a b < 2 * (rndNum a b % rndDen a b)) :
    rndMant a b = rndNum a b / rndDen a b + 1 := by
  dsimp only [rndMant]
  rw [if_neg (by omega), if_pos h]

theorem rndMant_eq_tie (a b : ℕ)
    (h : 2 * (rndNum a b % rndDen a b) = rndDen a b) :
    rndMant a b = if (rndNum a b / rndDen a b) % 2 = 0 then
      rndNum a b / rndDen a b else rndNum a b / rndDen a b + 1 := by
  dsimp only [rndMant]
  rw [if_neg (by omega), if_neg (by omega)]

theorem div_split_q (num den : ℕ) (hden : 0 < den) :
    (num : ℚ) / (den : ℚ) =
      ((num / den : ℕ) : ℚ) + ((num % den : ℕ) : ℚ) / (den : ℚ) := by
  have hdm : den * (num / den) + num % den = num := Nat.div_add_mod num den
  have hq : (den : ℚ) * ((num / den : ℕ) : ℚ) + ((num % den : ℕ) : ℚ) =
      (num : ℚ) := by exact_mod_cast hdm
  have hdq : (den : ℚ) ≠ 0 := by
    have : (0 : ℚ) < (den : ℚ) := by exact_mod_cast hden
    exact ne_of_gt this
  field_simp
  linarith

theorem s_lt_m0_succ (num den : ℕ) (hden : 0 < den) :
    (num : ℚ) / (den : ℚ) < ((num / den : ℕ) : ℚ) + 1 := by
  rw [div_split_q num den hden]
  have hmod : num % den < den := Nat.mod_lt _ hden
  have h1 : ((num % den : ℕ) : ℚ) / (den : ℚ) < 1 := by
    rw [div_lt_one (by exact_mod_cast hden)]
    exact_mod_cast hmod
  linarith

theorem rndQ56_mono (a b a2 b2 : ℕ) (ha : 0 < a) (hb : 0 < b)
    (hba : b ≤ 16 * a) (ha2 : 0 < a2) (hb2 : 0 < b2) (hba2 : b2 ≤ 16 * a2)
    (hle : (a : ℚ) / (b : ℚ) ≤ (a2 : ℚ) / (b2 : ℚ)) :
    rndQ56 a b ≤ rndQ56 a2 b2 := by
  obtain ⟨hlo, hhi, h4⟩ := rndE_correct a b ha hb hba
  obtain ⟨hlo2, hhi2, h42⟩ := rndE_correct a2 b2 ha2 hb2 hba2
  have hee : rndE a b ≤ rndE a2 b2 := by
    have h1 : (2 : ℚ) ^ rndE a b < 2 ^ (rndE a2 b2 + 1) :=
      lt_of_le_of_lt (le_trans hlo hle) hhi2
    have := (zpow_lt_zpow_iff_right₀ (by norm_num : (1 : ℚ) < 2)).mp h1
    omega
  rcases lt_or_eq_of_le hee with hlt | heq
  · have h1 := (rndQ56_val_bounds a b ha hb hba).2
    have h2 := (rndQ56_val_bounds a2 b2 ha2 hb2 hba2).1
    have hmid : (2 : ℚ) ^ (rndE a b + 57) ≤ 2 ^ (rndE a2 b2 + 56) :=
      (zpow_le_zpow_iff_right₀ (by norm_num : (1 : ℚ) < 2)).mpr (by omega)
    have : (rndQ56 a b : ℚ) ≤ (rndQ56 a2 b2 : ℚ) :=
      le_trans h1 (le_trans hmid h2)
    exact_mod_cast this
  · -- same binade: compare significands
    have hden : 0 < rndDen a b := rndDen_pos a b hb
    have hden2 : 0 < rndDen a2 b2 := rndDen_pos a2 b2 hb2
    have hdq : (0 : ℚ) < ((rndDen a b : ℕ) : ℚ) := by exact_mod_cast hden
    have hdq2 : (0 : ℚ) < ((rndDen a2 b2 : ℕ) : ℚ) := by exact_mod_cast hden2
    have hz : (0 : ℚ) ≤ 2 ^ ((52 : ℤ) - rndE a b) := by positivity
    have hs : (rndNum a b : ℚ) / (rndDen a b : ℚ) ≤
        (rndNum a2 b2 : ℚ) / (rndDen a2 b2 : ℚ) := by
      rw [rndScale a b hb, rndScale a2 b2 hb2, ← heq]
      exact mul_le_mul_of_nonneg_right hle hz
    set m0 := rndNum a b / rndDen a b with hm0def
    set m02 := rndNum a2 b2 / rndDen a2 b2 with hm02def
    have hm0le : ((m0 : ℕ) : ℚ) ≤ (rndNum a b : ℚ) / (rndDen a b : ℚ) :=
      Nat.cast_div_le
    have hm02lt : (rndNum a2 b2 : ℚ) / (rndDen a2 b2 : ℚ) <
        ((m02 : ℕ) : ℚ) + 1 := s_lt_m0_succ _ _ hden2
    have hm0m02 : m0 ≤ m02 := by
      have : ((m0 : ℕ) : ℚ) < ((m02 : ℕ) : ℚ) + 1 :=
        lt_of_le_of_lt (le_trans hm0le hs) hm02lt
      have : (m0 : ℕ) < m02 + 1 := by exact_mod_cast this
      omega
    have hmant : rndMant a b ≤ rndMant a2 b2 := by
      rcases Nat.lt_or_ge m0 m02 with hlt0 | hge0
      · have hup : rndMant a b ≤ m0 + 1 := by
          rcases rndMant_cases a b with h | h <;> rw [h] <;> omega
        have hdn : m02 ≤ rndMant a2 b2 := by
          rcases rndMant_cases a2 b2 with h | h <;> rw [h] <;> omega
        omega
      · have heq0 : m0 = m02 := by omega
        -- fractional parts
        set r := rndNum a b % rndDen a b with hrdef
        set r2 := rndNum a2 b2 % rndDen a2 b2 with hr2def
        have hsplit1 := div_split_q (rndNum a b) (rndDen a b) hden
        have hsplit2 := div_split_q (rndNum a2 b2) (rndDen a2 b2) hden2
        have hfrac : ((r : ℕ) : ℚ) / (rndDen a b : ℚ) ≤
            ((r2 : ℕ) : ℚ) / (rndDen a2 b2 : ℚ) := by
          rw [hsplit1, hsplit2] at hs
          rw [← hm0def, ← hm02def, ← heq0] at hs
          linarith
        have hcross : ((r : ℕ) : ℚ) * (rndDen a2 b2 : ℚ) ≤
            ((r2 : ℕ) : ℚ) * (rndDen a b : ℚ) := by
          rw [div_le_div_iff₀ hdq hdq2] at hfrac
          linarith
        by_cases c1 : 2 * r < rndDen a b
        · rw [rndMant_eq_low a b c1]
          have : m02 ≤ rndMant a2 b2 := by
            rcases rndMant_cases a2 b2 with h | h <;> rw [h] <;> omega
          omega
        · by_cases c2 : rndDen a b < 2 * r
          · -- strict upper half: the second fraction is also above one half
            have hc2q : (rndDen a b : ℚ) < 2 * ((r : ℕ) : ℚ) := by
              exact_mod_cast c2
            have hc2' : (rndDen a2 b2 : ℕ) < 2 * r2 := by
              have s1 : (rndDen a b : ℚ) * (rndDen a2 b2 : ℚ) <
                  2 * ((r : ℕ) : ℚ) * (rndDen a2 b2 : ℚ) :=
                mul_lt_mul_of_pos_right hc2q hdq2
              have s2 : (rndDen a b : ℚ) * (rndDen a2 b2 : ℚ) <
                  2 * ((r2 : ℕ) : ℚ) * (rndDen a b : ℚ) := by
                linarith [hcross]
              have hcomm : (rndDen a b : ℚ) * (rndDen a2 b2 : ℚ) =
                  (rndDen a2 b2 : ℚ) * (rndDen a b : ℚ) := mul_comm _ _
              rw [hcomm] at s2
              have hq : ((rndDen a2 b2 : ℕ) : ℚ) < 2 * ((r2 : ℕ) : ℚ) :=
                lt_of_mul_lt_mul_right s2 (le_of_lt hdq)
              exact_mod_cast hq
            rw [rndMant_eq_high a b c2, rndMant_eq_high a2 b2 hc2', ← hm0def,
              ← hm02def, heq0]
          · -- exact tie on the first fraction
            have ctie : 2 * r = rndDen a b := by omega
            have ctieq : 2 * ((r : ℕ) : ℚ) = (rndDen a b : ℚ) := by
              exact_mod_cast ctie
            by_cases d1 : rndDen a2 b2 < 2 * r2
            · have hup : rndMant a b ≤ m0 + 1 := by
                rcases rndMant_cases a b with h | h <;> rw [h] <;> omega
              rw [rndMant_eq_high a2 b2 d1, ← hm02def]
              omega
            · by_cases d2 : 2 * r2 = rndDen a2 b2
              · rw [rndMant_eq_tie a b ctie, rndMant_eq_tie a2 b2 d2,
                  ← hm0def, ← hm02def, heq0]
              · -- 2 r2 < den2 contradicts the fraction comparison
                exfalso
                have d3 : 2 * r2 < rndDen a2 b2 := by omega
                have d3q : 2 * ((r2 : ℕ) : ℚ) < (rndDen a2 b2 : ℚ) := by
                  exact_mod_cast d3
                have e1 : (rndDen a b : ℚ) * (rndDen a2 b2 : ℚ) =
                    2 * ((r : ℕ) : ℚ) * (rndDen a2 b2 : ℚ) := by
                  rw [ctieq]
                have e3 : 2 * ((r2 : ℕ) : ℚ) * (rndDen a b : ℚ) <
                    (rndDen a2 b2 : ℚ) * (rndDen a b : ℚ) :=
                  mul_lt_mul_of_pos_right d3q hdq
                have e4 : (rndDen a2 b2 : ℚ) * (rndDen a b : ℚ) =
                    (rndDen a b : ℚ) * (rndDen a2 b2 : ℚ) := mul_comm _ _
                linarith [hcross]
    have hexp4 : (rndE a b + 4).toNat = (rndE a2 b2 + 4).toNat := by
      rw [heq]
    rw [rndQ56, rndQ56, hexp4]
    exact Nat.mul_le_mul_right _ hmant

theorem rndQ56_nat_exact (n j : ℕ) (h1 : 1 ≤ n) (h2 : n ≤ 2 ^ 53) :
    rndQ56 (n * 2 ^ j) (2 ^ j) = n * 2 ^ 56 := by
  have ha : 0 < n * 2 ^ j := by positivity
  have hb : (0 : ℕ) < 2 ^ j := by positivity
  have hba : 2 ^ j ≤ 16 * (n * 2 ^ j) := by nlinarith
  have hbq : ((2 ^ j : ℕ) : ℚ) ≠ 0 := by positivity
  have hvq : ((n * 2 ^ j : ℕ) : ℚ) / ((2 ^ j : ℕ) : ℚ) = (n : ℚ) := by
    push_cast
    field_simp
  obtain ⟨hlo, hhi, h4⟩ := rndE_correct _ _ ha hb hba
  rw [hvq] at hlo hhi
  set e := rndE (n * 2 ^ j) (2 ^ j) with hedef
  have he0 : 0 ≤ e := by
    by_contra hneg
    push_neg at hneg
    have hle1 : (2 : ℚ) ^ (e + 1) ≤ 1 :=
      zpow_le_one_of_nonpos₀ (by norm_num) (by omega)
    have : (n : ℚ) < 1 := lt_of_lt_of_le hhi hle1
    have : n < 1 := by exact_mod_cast this
    omega
  have hz53 : (2 : ℚ) ^ (53 : ℤ) = ((2 ^ 53 : ℕ) : ℚ) := by norm_num
  have he53 : e ≤ 53 := by
    have hn53 : (n : ℚ) ≤ 2 ^ (53 : ℤ) := by
      rw [hz53]
      exact_mod_cast h2
    have := le_trans hlo hn53
    exact (zpow_le_zpow_iff_right₀ (by norm_num : (1 : ℚ) < 2)).mp this
  by_cases hle52 : e ≤ 52
  · have hN : rndNum (n * 2 ^ j) (2 ^ j) = n * 2 ^ j * 2 ^ ((52 - e).toNat) :=
      rfl
    have hD : rndDen (n * 2 ^ j) (2 ^ j) = 2 ^ j * 2 ^ ((e - 52).toNat) := rfl
    have hD0 : (e - 52).toNat = 0 := by omega
    have hDval : rndDen (n * 2 ^ j) (2 ^ j) = 2 ^ j := by
      rw [hD, hD0, pow_zero, mul_one]
    have hmod : rndNum (n * 2 ^ j) (2 ^ j) % rndDen (n * 2 ^ j) (2 ^ j) = 0 := by
      rw [hN, hDval]
      have : n * 2 ^ j * 2 ^ ((52 - e).toNat) =
          2 ^ j * (n * 2 ^ ((52 - e).toNat)) := by ring
      rw [this]
      exact Nat.mul_mod_right _ _
    have hdiv : rndNum (n * 2 ^ j) (2 ^ j) / rndDen (n * 2 ^ j) (2 ^ j) =
        n * 2 ^ ((52 - e).toNat) := by
      rw [hN, hDval]
      have : n * 2 ^ j * 2 ^ ((52 - e).toNat) =
          2 ^ j * (n * 2 ^ ((52 - e).toNat)) := by ring
      rw [this]
      exact Nat.mul_div_cancel_left _ hb
    have hmant : rndMant (n * 2 ^ j) (2 ^ j) = n * 2 ^ ((52 - e).toNat) := by
      rw [rndMant_eq_low _ _ (by rw [hmod]; omega), hdiv]
    rw [rndQ56, hmant, ← hedef, mul_assoc, ← pow_add]
    congr 2
    omega
  · have he53' : e = 53 := by omega
    have hn : n = 2 ^ 53 := by
      have h253 : (2 : ℚ) ^ (53 : ℤ) ≤ (n : ℚ) := by
        rw [← he53']
        exact hlo
      rw [hz53] at h253
      have : (2 : ℕ) ^ 53 ≤ n := by exact_mod_cast h253
      omega
    have hN : rndNum (n * 2 ^ j) (2 ^ j) = n * 2 ^ j * 2 ^ ((52 - e).toNat) :=
      rfl
    have hD : rndDen (n * 2 ^ j) (2 ^ j) = 2 ^ j * 2 ^ ((e - 52).toNat) := rfl
    have hN0 : (52 - e).toNat = 0 := by omega
    have hD1 : (e - 52).toNat = 1 := by omega
    have hNval : rndNum (n * 2 ^ j) (2 ^ j) = 2 ^ 53 * 2 ^ j := by
      rw [hN, hN0, pow_zero, mul_one, hn]
    have hDval : rndDen (n * 2 ^ j) (2 ^ j) = 2 ^ (j + 1) := by
      rw [hD, hD1, pow_one, pow_succ]
    have hmod : rndNum (n * 2 ^ j) (2 ^ j) % rndDen (n * 2 ^ j) (2 ^ j) = 0 := by
      rw [hNval, hDval]
      have : (2 : ℕ) ^ 53 * 2 ^ j = 2 ^ (j + 1) * 2 ^ 52 := by
        rw [← pow_add, ← pow_add]
        congr 1
        omega
      rw [this]
      exact Nat.mul_mod_right _ _
    have hdiv : rndNum (n * 2 ^ j) (2 ^ j) / rndDen (n * 2 ^ j) (2 ^ j) =
        2 ^ 52 := by
      rw [hNval, hDval]
      have : (2 : ℕ) ^ 53 * 2 ^ j = 2 ^ (j + 1) * 2 ^ 52 := by
        rw [← pow_add, ← pow_add]
        congr 1
        omega
      rw [this]
      exact Nat.mul_div_cancel_left _ (by positivity)
    have hmant : rndMant (n * 2 ^ j) (2 ^ j) = 2 ^ 52 := by
      rw [rndMant_eq_low _ _ (by rw [hmod]; omega), hdiv]
    rw [rndQ56, hmant, ← hedef, hn]
    have hexp : (e + 4).toNat = 57 := by omega
    rw [hexp, ← pow_add, ← pow_add]

theorem rndQ56_ge52 (a b : ℕ) (ha : 0 < a) (hb : 0 < b) (hba : b ≤ 16 * a) :
    2 ^ 52 ≤ rndQ56 a b := by
  have hm := (rndMant_bounds a b ha hb hba).1
  rw [rndQ56]
  calc (2 : ℕ) ^ 52 = 2 ^ 52 * 1 := by ring
    _ ≤ rndMant a b * 2 ^ ((rndE a b + 4).toNat) :=
      Nat.mul_le_mul hm (Nat.one_le_two_pow)

theorem rndQ56_pos (a b : ℕ) (ha : 0 < a) (hb : 0 < b) (hba : b ≤ 16 * a) :
    0 < rndQ56 a b :=
  lt_of_lt_of_le (by positivity) (rndQ56_ge52 a b ha hb hba)

theorem rndQ56_one_arg (n : ℕ) (h1 : 1 ≤ n) (h2 : n ≤ 2 ^ 53) :
    rndQ56 n 1 = n * 2 ^ 56 := by
  have := rndQ56_nat_exact n 0 h1 h2
  simpa using this

theorem pyIdx_ten (n : ℕ) (h1 : 1 ≤ n) (h2 : n ≤ 2 ^ 53) :
    pyIdx 10 n = n - 1 := by
  have ht10 : rndQ56 10 10 = 2 ^ 56 := by decide
  rw [pyIdx, ht10, rndQ56_one_arg n h1 h2]
  have hprod : 2 ^ 56 * (n * 2 ^ 56) = n * 2 ^ 112 := by ring
  rw [hprod, rndQ56_nat_exact n 112 h1 h2,
    Nat.mul_div_cancel _ (by positivity : (0:ℕ) < 2 ^ 56)]

theorem pyIdx_lt (i n : ℕ) (hi1 : 1 ≤ i) (hi : i ≤ 10) (h1 : 1 ≤ n)
    (h2 : n ≤ 2 ^ 53) : pyIdx i n < n := by
  by_cases hten : i = 10
  · rw [hten, pyIdx_ten n h1 h2]
    omega
  · have hi9 : i ≤ 9 := by omega
    have hnf : rndQ56 n 1 = n * 2 ^ 56 := rndQ56_one_arg n h1 h2
    have ht52 : 2 ^ 52 ≤ rndQ56 i 10 := by
      interval_cases i <;> decide
    have ht91 : 100 * rndQ56 i 10 ≤ 91 * 2 ^ 56 := by
      interval_cases i <;> decide
    set t := rndQ56 i 10 with htdef
    set A := t * (n * 2 ^ 56) with hAdef
    have hApos : 0 < A := by
      have : 0 < t := by omega
      positivity
    have hBpos : (0 : ℕ) < 2 ^ 112 := by positivity
    have hba : 2 ^ 112 ≤ 16 * A := by
      calc (2 : ℕ) ^ 112 = 16 * (2 ^ 52 * (1 * 2 ^ 56)) := by norm_num
        _ ≤ 16 * (t * (n * 2 ^ 56)) := by
          apply Nat.mul_le_mul_left
          exact Nat.mul_le_mul ht52 (Nat.mul_le_mul_right _ h1)
    -- value of the product is at most (91/100) n
    have hvq : ((A : ℕ) : ℚ) / ((2 ^ 112 : ℕ) : ℚ) ≤ 91 / 100 * (n : ℚ) := by
      rw [div_le_iff₀ (by positivity)]
      have htq : (t : ℚ) ≤ 91 * 2 ^ 56 / 100 := by
        rw [le_div_iff₀ (by norm_num : (0 : ℚ) < 100)]
        have : (100 : ℚ) * t ≤ 91 * 2 ^ 56 := by exact_mod_cast ht91
        linarith
      have hA : ((A : ℕ) : ℚ) = (t : ℚ) * (n : ℚ) * 2 ^ 56 := by
        rw [hAdef]
        push_cast
        ring
      rw [hA]
      push_cast
      have hn0 : (0 : ℚ) ≤ (n : ℚ) := by positivity
      nlinarith [htq, hn0]
    -- error bound for the final rounding
    have herr := rndQ56_err A (2 ^ 112) hApos hBpos hba
    have he := rndE_correct A (2 ^ 112) hApos hBpos hba
    have hefour : (2 : ℚ) ^ (rndE A (2 ^ 112) + 4) ≤
        16 * (((A : ℕ) : ℚ) / ((2 ^ 112 : ℕ) : ℚ)) := by
      calc (2 : ℚ) ^ (rndE A (2 ^ 112) + 4) =
          2 ^ rndE A (2 ^ 112) * 16 := by
            rw [zpow_add₀ (by norm_num : (2 : ℚ) ≠ 0)]
            norm_num
        _ ≤ (((A : ℕ) : ℚ) / ((2 ^ 112 : ℕ) : ℚ)) * 16 :=
            mul_le_mul_of_nonneg_right he.1 (by norm_num)
        _ = 16 * (((A : ℕ) : ℚ) / ((2 ^ 112 : ℕ) : ℚ)) := by ring
    have hlt : (rndQ56 A (2 ^ 112) : ℚ) < (n : ℚ) * 2 ^ 56 := by
      have hchain : (rndQ56 A (2 ^ 112) : ℚ) ≤
          (91 / 100 * (n : ℚ)) * 2 ^ 56 + 16 * (91 / 100 * (n : ℚ)) := by
        have h16 : (0:ℚ) ≤ 16 := by norm_num
        calc (rndQ56 A (2 ^ 112) : ℚ)
            ≤ ((A : ℕ) : ℚ) / ((2 ^ 112 : ℕ) : ℚ) * 2 ^ 56 +
              2 ^ (rndE A (2 ^ 112) + 4) := herr
          _ ≤ (91 / 100 * (n : ℚ)) * 2 ^ 56 +
              16 * (91 / 100 * (n : ℚ)) := by
            have h1' := mul_le_mul_of_nonneg_right hvq
              (by positivity : (0:ℚ) ≤ (2:ℚ) ^ (56:ℕ))
            have h2' : (16 : ℚ) * (((A : ℕ) : ℚ) / ((2 ^ 112 : ℕ) : ℚ)) ≤
                16 * (91 / 100 * (n : ℚ)) := by linarith
            linarith [le_trans hefour h2']
      have hcoef : (91 : ℚ) / 100 * 2 ^ 56 + 16 * (91 / 100) < 2 ^ 56 := by
        norm_num
      have hn0 : (0 : ℚ) < (n : ℚ) := by exact_mod_cast h1
      have hfinal : (91 / 100 * (n : ℚ)) * 2 ^ 56 + 16 * (91 / 100 * (n : ℚ)) <
          (n : ℚ) * 2 ^ 56 := by
        calc (91 / 100 * (n : ℚ)) * 2 ^ 56 + 16 * (91 / 100 * (n : ℚ))
            = (n : ℚ) * ((91 : ℚ) / 100 * 2 ^ 56 + 16 * (91 / 100)) := by ring
          _ < (n : ℚ) * 2 ^ 56 := mul_lt_mul_of_pos_left hcoef hn0
      exact lt_of_le_of_lt hchain hfinal
    have hnat : rndQ56 A (2 ^ 112) < n * 2 ^ 56 := by
      exact_mod_cast (by push_cast; linarith : ((rndQ56 A (2 ^ 112) : ℕ) : ℚ) <
        ((n * 2 ^ 56 : ℕ) : ℚ))
    have hdivlt : rndQ56 A (2 ^ 112) / 2 ^ 56 < n :=
      (Nat.div_lt_iff_lt_mul (by positivity)).mpr
        (by rw [mul_comm] at hnat ⊢; omega)
    rw [pyIdx, ← htdef, hnf, ← hAdef]
    omega

theorem pyIdx_mono_i (n : ℕ) (h1 : 1 ≤ n) (h2 : n ≤ 2 ^ 53) (i i2 : ℕ)
    (hi1 : 1 ≤ i) (hle : i ≤ i2) : pyIdx i n ≤ pyIdx i2 n := by
  have hi21 : 1 ≤ i2 := by omega
  have ht : rndQ56 i 10 ≤ rndQ56 i2 10 := by
    apply rndQ56_mono i 10 i2 10 (by omega) (by omega) (by omega) (by omega)
      (by omega) (by omega)
    have h10 : (0 : ℚ) < ((10 : ℕ) : ℚ) := by norm_num
    rw [div_le_div_iff₀ h10 h10]
    have hc : (i : ℚ) ≤ (i2 : ℚ) := by exact_mod_cast hle
    nlinarith [h10]
  have hnf : rndQ56 n 1 = n * 2 ^ 56 := rndQ56_one_arg n h1 h2
  have ht52 : 2 ^ 52 ≤ rndQ56 i 10 :=
    rndQ56_ge52 i 10 (by omega) (by omega) (by omega)
  have hApos : 0 < rndQ56 i 10 * rndQ56 n 1 := by
    rw [hnf]
    have : 0 < rndQ56 i 10 := by omega
    positivity
  have hA2pos : 0 < rndQ56 i2 10 * rndQ56 n 1 := by
    rw [hnf]
    have ht52b : 2 ^ 52 ≤ rndQ56 i2 10 :=
      rndQ56_ge52 i2 10 (by omega) (by omega) (by omega)
    have : 0 < rndQ56 i2 10 := by omega
    positivity
  have hba : 2 ^ 112 ≤ 16 * (rndQ56 i 10 * rndQ56 n 1) := by
    rw [hnf]
    calc (2 : ℕ) ^ 112 = 16 * (2 ^ 52 * (1 * 2 ^ 56)) := by norm_num
      _ ≤ 16 * (rndQ56 i 10 * (n * 2 ^ 56)) := by
        apply Nat.mul_le_mul_left
        exact Nat.mul_le_mul ht52 (Nat.mul_le_mul_right _ h1)
  have hba2 : 2 ^ 112 ≤ 16 * (rndQ56 i2 10 * rndQ56 n 1) := by
    have := Nat.mul_le_mul_right (rndQ56 n 1) ht
    omega
  have houter : rndQ56 (rndQ56 i 10 * rndQ56 n 1) (2 ^ 112) ≤
      rndQ56 (rndQ56 i2 10 * rndQ56 n 1) (2 ^ 112) := by
    apply rndQ56_mono _ _ _ _ hApos (by positivity) hba hA2pos (by positivity)
      hba2
    have hBq : (0 : ℚ) < ((2 ^ 112 : ℕ) : ℚ) := by positivity
    rw [div_le_div_iff₀ hBq hBq]
    have hcast : ((rndQ56 i 10 * rndQ56 n 1 : ℕ) : ℚ) ≤
        ((rndQ56 i2 10 * rndQ56 n 1 : ℕ) : ℚ) := by
      exact_mod_cast Nat.mul_le_mul_right (rndQ56 n 1) ht
    nlinarith [hBq]
  rw [pyIdx, pyIdx]
  have := Nat.div_le_div_right (c := 2 ^ 56) houter
  omega

theorem insertSorted_length (x : ℕ) (l : List ℕ) :
    (insertSorted x l).length = l.length + 1 := by
  induction l with
  | nil => rfl
  | cons y ys ih =>
    rw [insertSorted]
    split
    · rfl
    · simp only [List.length_cons, ih]

theorem sortNat_length (l : List ℕ) : (sortNat l).length = l.length := by
  induction l with
  | nil => rfl
  | cons x xs ih =>
    show (insertSorted x (sortNat xs)).length = xs.length + 1
    rw [insertSorted_length, ih]

theorem mem_insertSorted (b x : ℕ) (l : List ℕ)
    (hb : b ∈ insertSorted x l) : b = x ∨ b ∈ l := by
  induction l with
  | nil => simp_all [insertSorted]
  | cons z zs ihz =>
    rw [insertSorted] at hb
    revert hb
    split
    · intro hb
      rcases List.mem_cons.mp hb with h1 | h1
      · exact Or.inl h1
      · exact Or.inr h1
    · intro hb
      rcases List.mem_cons.mp hb with h1 | h1
      · exact Or.inr (by simp [h1])
      · rcases ihz h1 with h2 | h2
        · exact Or.inl h2
        · exact Or.inr (List.mem_cons_of_mem z h2)

theorem insertSorted_sorted (x : ℕ) (l : List ℕ)
    (h : l.Sorted (· ≤ ·)) : (insertSorted x l).Sorted (· ≤ ·) := by
  induction l with
  | nil => simp [insertSorted]
  | cons y ys ih =>
    rw [List.sorted_cons] at h
    rw [insertSorted]
    split
    · rename_i hxy
      rw [List.sorted_cons]
      refine ⟨?_, by rw [List.sorted_cons]; exact h⟩
      intro b hb
      rcases List.mem_cons.mp hb with hb | hb
      · omega
      · exact le_trans hxy (h.1 b hb)
    · rename_i hxy
      rw [List.sorted_cons]
      refine ⟨?_, ih h.2⟩
      intro b hb
      rcases mem_insertSorted b x ys hb with hb2 | hb2
      · omega
      · exact h.1 b hb2

theorem sortNat_sorted (l : List ℕ) : (sortNat l).Sorted (· ≤ ·) := by
  induction l with
  | nil => exact List.sorted_nil
  | cons x xs ih => exact insertSorted_sorted x (sortNat xs) ih

theorem takeWhile_length_mono (p q : ℕ → Bool) (l : List ℕ)
    (h : ∀ t, p t = true → q t = true) :
    (l.takeWhile p).length ≤ (l.takeWhile q).length := by
  induction l with
  | nil => simp
  | cons a as ih =>
    rw [List.takeWhile_cons, List.takeWhile_cons]
    rcases hp : p a with _ | _
    · simp
    · rw [h a hp]
      simpa using ih

theorem takeWhile_length_eq_countP (c : ℕ) (l : List ℕ)
    (h : l.Sorted (· ≤ ·)) :
    (l.takeWhile fun t => decide (t < c)).length =
      l.countP fun t => decide (t < c) := by
  induction l with
  | nil => rfl
  | cons a as ih =>
    rw [List.sorted_cons] at h
    rw [List.takeWhile_cons, List.countP_cons]
    rcases ha : decide (a < c) with _ | _
    · have hac : c ≤ a := by simpa using ha
      have h0 : (as.countP fun t => decide (t < c)) = 0 := by
        rw [List.countP_eq_zero]
        intro t ht
        have := h.1 t ht
        simp only [decide_eq_true_eq]
        omega
      simp [h0]
    · simp [ih h.2]

theorem scoreOf_mono (thresholds : List ℕ) (g1 g2 : ℕ) (h : g1 ≤ g2) :
    scoreOf thresholds g1 ≤ scoreOf thresholds g2 := by
  rw [scoreOf, scoreOf]
  have := takeWhile_length_mono (fun t => decide (t < g1))
    (fun t => decide (t < g2)) thresholds
    (by intro t ht; simp only [decide_eq_true_eq] at ht ⊢; omega)
  omega

theorem scoreOf_pos (thresholds : List ℕ) (g : ℕ) :
    1 ≤ scoreOf thresholds g := by
  rw [scoreOf]; omega

theorem gameCounts_nil (m : StatsMap) (h : sortedCounts m = [])
    (p : String × PopularityStats) (hp : p ∈ m) :
    p.2.games_analyzed = 0 := by
  have hlen : (gameCounts m).length = 0 := by
    have := sortNat_length (gameCounts m)
    rw [sortedCounts] at h
    rw [← this, h]
    rfl
  have hnil : gameCounts m = [] := List.length_eq_zero.mp hlen
  rw [gameCounts, List.filter_eq_nil_iff] at hnil
  by_contra hne
  exact hnil p.2.games_analyzed
    (List.mem_map.mpr ⟨p, hp, rfl⟩) (by simpa using Nat.pos_of_ne_zero hne)

theorem calc_scores_elem (m : StatsMap)
    (hemp : (sortedCounts m).isEmpty = false) (p : String × PopularityStats)
    (hp : p ∈ calculate_popularity_scores m) :
    (p.2.games_analyzed = 0 →
      p.2.popularity_score = 0 ∧ p.2.confidence_score = 0) ∧
    (0 < p.2.games_analyzed →
      p.2.popularity_score =
        scoreOf (percentileThresholds (sortedCounts m)) p.2.games_analyzed ∧
      p.2.confidence_score = confidenceOf p.2.games_analyzed) := by
  rw [calculate_popularity_scores] at hp
  simp only [hemp, Bool.false_eq_true, if_false] at hp
  obtain ⟨p0, hp0, rfl⟩ := List.mem_map.mp hp
  by_cases hz : p0.2.games_analyzed = 0
  · rw [if_pos hz]
    exact ⟨fun _ => ⟨rfl, rfl⟩,
      fun hpos => absurd (show (0 : ℕ) < p0.2.games_analyzed from hpos)
        (by omega)⟩
  · rw [if_neg hz]
    exact ⟨fun h0 => absurd (show p0.2.games_analyzed = 0 from h0) hz,
      fun _ => ⟨rfl, rfl⟩⟩

theorem calc_scores_empty (m : StatsMap)
    (h : (sortedCounts m).isEmpty = true) :
    calculate_popularity_scores m = m := by
  rw [calculate_popularity_scores]
  simp [h]

/-- C6: after `calculate_popularity_scores`, `popularity_score` is
monotone non-decreasing in `games_analyzed` across the whole map: among
positive-count records a smaller count never gets a larger score, and a
zero-count record's score (0) is never above a positive record's. -/
theorem popularity_score_monotone (m : StatsMap)
    (p q : String × PopularityStats)
    (hp : p ∈ calculate_popularity_scores m)
    (hq : q ∈ calculate_popularity_scores m) :
    (0 < p.2.games_analyzed → p.2.games_analyzed ≤ q.2.games_analyzed →
      p.2.popularity_score ≤ q.2.popularity_score) ∧
    (p.2.games_analyzed = 0 → 0 < q.2.games_analyzed →
      p.2.popularity_score ≤ q.2.popularity_score) := by
  rcases hemp : (sortedCounts m).isEmpty with _ | _
  · have hpel := calc_scores_elem m hemp p hp
    have hqel := calc_scores_elem m hemp q hq
    constructor
    · intro hpp hle
      have hqp : 0 < q.2.games_analyzed := lt_of_lt_of_le hpp hle
      rw [(hpel.2 hpp).1, (hqel.2 hqp).1]
      exact scoreOf_mono _ _ _ hle
    · intro hp0 _
      rw [(hpel.1 hp0).1]
      exact Nat.zero_le _
  · rw [calc_scores_empty m hemp] at hp hq
    have hp0 := gameCounts_nil m (by rwa [List.isEmpty_iff] at hemp) p hp
    have hq0 := gameCounts_nil m (by rwa [List.isEmpty_iff] at hemp) q hq
    exact ⟨fun hpp _ => absurd hpp (by omega),
      fun _ hqp => absurd hqp (by omega)⟩

theorem popularity_score_monotone_witness :
    pW6 ∈ calculate_popularity_scores mW6 ∧
    qW6 ∈ calculate_popularity_scores mW6 ∧
    ((0 < pW6.2.games_analyzed → pW6.2.games_analyzed ≤ qW6.2.games_analyzed →
        pW6.2.popularity_score ≤ qW6.2.popularity_score) ∧
     (pW6.2.games_analyzed = 0 → 0 < qW6.2.games_analyzed →
        pW6.2.popularity_score ≤ qW6.2.popularity_score)) := by
  have h0 : 0 < (calculate_popularity_scores mW6).length := by decide
  have h1 : 1 < (calculate_popularity_scores mW6).length := by decide
  have hm0 : pW6 ∈ calculate_popularity_scores mW6 := by
    rw [show pW6 = (calculate_popularity_scores mW6).get ⟨0, h0⟩ from
      List.getD_eq_get _ _ h0]
    exact List.get_mem _ _ _
  have hm1 : qW6 ∈ calculate_popularity_scores mW6 := by
    rw [show qW6 = (calculate_popularity_scores mW6).get ⟨1, h1⟩ from
      List.getD_eq_get _ _ h1]
    exact List.get_mem _ _ _
  exact ⟨hm0, hm1, popularity_score_monotone mW6 pW6 qW6 hm0 hm1⟩

theorem percentileThresholds_sorted (counts : List ℕ)
    (hs : counts.Sorted (· ≤ ·)) (hn : 0 < counts.length)
    (hle : counts.length ≤ 2 ^ 53) :
    (percentileThresholds counts).Sorted (· ≤ ·) := by
  rw [percentileThresholds]
  refine List.pairwise_map.mpr ?_
  refine (List.pairwise_lt_range 10).imp_of_mem ?_
  intro a b ha hb hab
  have ha10 : a < 10 := List.mem_range.mp ha
  have hb10 : b < 10 := List.mem_range.mp hb
  have hia : pyIdx (a + 1) counts.length ≤ pyIdx (b + 1) counts.length :=
    pyIdx_mono_i counts.length hn hle (a + 1) (b + 1) (by omega) (by omega)
  have hib : pyIdx (b + 1) counts.length < counts.length :=
    pyIdx_lt (b + 1) counts.length (by omega) (by omega) hn hle
  have hiaL : pyIdx (a + 1) counts.length < counts.length := by omega
  rw [List.getD_eq_get counts 0 hiaL, List.getD_eq_get counts 0 hib]
  rcases lt_or_eq_of_le hia with h | h
  · exact List.pairwise_iff_get.mp hs ⟨_, hiaL⟩ ⟨_, hib⟩ h
  · exact le_of_eq (congrArg counts.get (Fin.ext h))

/-- C3: amended decile claim.  Writing `n` for the number of positive
game counts and `sorted` for their ascending list, the script's
threshold list is `sorted[int((i/10)*n) - 1]` for `i = 1..10` with the
index computed in binary64 (`pyIdx`, clamped below at 0); that index
always lands in range, so the spec's upper clamp at `n - 1` is
satisfied but the spec's exact formula `floor(i*n/10) - 1` is not
followed (see the counterexample at `n = 90`).  Zero-count records get
score 0 and confidence 0; a positive record's score is
`min(1 + #\x7bthresholds strictly below its count\x7d, 10)`, so a count
equal to a threshold takes the lower adjacent score. -/
theorem decile_thresholds_and_scores (m : StatsMap)
    (hn : 0 < (sortedCounts m).length)
    (hle : (sortedCounts m).length ≤ 2 ^ 53) :
    (∀ k, k < 10 →
      pyIdx (k + 1) (sortedCounts m).length < (sortedCounts m).length) ∧
    percentileThresholds (sortedCounts m) =
      (List.range 10).map (fun k => (sortedCounts m).getD
        (min (pyIdx (k + 1) (sortedCounts m).length)
          ((sortedCounts m).length - 1)) 0) ∧
    ∀ p ∈ calculate_popularity_scores m,
      (p.2.games_analyzed = 0 →
        p.2.popularity_score = 0 ∧ p.2.confidence_score = 0) ∧
      (0 < p.2.games_analyzed →
        p.2.popularity_score =
          min (1 + (percentileThresholds (sortedCounts m)).countP
            (fun t => decide (t < p.2.games_analyzed))) 10) := by
  have hinr : ∀ k, k < 10 →
      pyIdx (k + 1) (sortedCounts m).length < (sortedCounts m).length :=
    fun k hk =>
      pyIdx_lt (k + 1) (sortedCounts m).length (by omega) (by omega) hn hle
  have hemp : (sortedCounts m).isEmpty = false := by
    cases hc : sortedCounts m with
    | nil => rw [hc] at hn; simp at hn
    | cons a l => rfl
  have hsort : (sortedCounts m).Sorted (· ≤ ·) := sortNat_sorted _
  have hthr : (percentileThresholds (sortedCounts m)).Sorted (· ≤ ·) :=
    percentileThresholds_sorted _ hsort hn hle
  refine ⟨hinr, ?_, ?_⟩
  · rw [percentileThresholds]
    refine List.map_congr_left ?_
    intro k hk
    have := hinr k (List.mem_range.mp hk)
    rw [min_eq_left (by omega)]
  · intro p hp
    have hel := calc_scores_elem m hemp p hp
    refine ⟨hel.1, fun hpos => ?_⟩
    rw [(hel.2 hpos).1, scoreOf,
      takeWhile_length_eq_countP p.2.games_analyzed _ hthr]

theorem decile_thresholds_and_scores_witness :
    0 < (sortedCounts mW6).length ∧ (sortedCounts mW6).length ≤ 2 ^ 53 ∧
    ((∀ k, k < 10 →
      pyIdx (k + 1) (sortedCounts mW6).length < (sortedCounts mW6).length) ∧
    percentileThresholds (sortedCounts mW6) =
      (List.range 10).map (fun k => (sortedCounts mW6).getD
        (min (pyIdx (k + 1) (sortedCounts mW6).length)
          ((sortedCounts mW6).length - 1)) 0) ∧
    ∀ p ∈ calculate_popularity_scores mW6,
      (p.2.games_analyzed = 0 →
        p.2.popularity_score = 0 ∧ p.2.confidence_score = 0) ∧
      (0 < p.2.games_analyzed →
        p.2.popularity_score =
          min (1 + (percentileThresholds (sortedCounts mW6)).countP
            (fun t => decide (t < p.2.games_analyzed))) 10)) :=
  ⟨by decide, by decide,
    decile_thresholds_and_scores mW6 (by decide) (by decide)⟩

/-- Counterexample to C3's index formula: on 90 positive counts
`1, 2, ..., 90` the script's binary64 index `int((i/10)*n) - 1` lands on
61 instead of 62 at `i = 7` (because `(7/10)*90` rounds to
`62.99999999999999` and `int` truncates), so the seventh threshold is 62
where the claim's `sorted[floor(i/10 * n) - 1]` gives 63, and the record
with 63 games receives popularity score 8 where the claim's formula
yields 7. -/
theorem decile_index_float_counterexample :
    percentileThresholds (sortedCounts m90) ≠
      specThresholds (sortedCounts m90) ∧
    percentileThresholds (sortedCounts m90) =
      [9, 18, 27, 36, 45, 54, 62, 72, 81, 90] ∧
    specThresholds (sortedCounts m90) =
      [9, 18, 27, 36, 45, 54, 63, 72, 81, 90] ∧
    ∃ p ∈ calculate_popularity_scores m90,
      p.2.games_analyzed = 63 ∧ p.2.popularity_score = 8 ∧
      min (1 + (specThresholds (sortedCounts m90)).countP
        (fun t => decide (t < p.2.games_analyzed))) 10 = 7 := by
  decide
